import Mathlib

/-!
Verification of the waldb storage engine (src/main.rs): an append-only
write-ahead-log key-value store with an in-memory key-to-offset index.

Modelling conventions:
* Keys and values are byte sequences (`List Nat`); Rust `String` keys/values
  are modelled by their UTF-8 byte sequences.  The log file is its byte
  contents (`List Nat`).
* Machine integers are `Nat` with explicit wrap-around where the source
  wraps: the `as u32` casts in `to_binary_log` become `% 2^32` (taken by the
  4-byte big-endian encoder), and `u128::to_be_bytes` of the millisecond
  timestamp becomes the 16-byte big-endian encoder.
* `read_exact_at` either fills the whole buffer or fails; it is modelled as
  an `Option`-returning exact slice read.  The `.unwrap()` calls in
  `StorageEngine::get` — on the reads and on `String::from_utf8` of the
  value bytes — are modelled by the `GetResult.panic` outcome; the
  `String::from_utf8(key_buffer).unwrap()` of the rebuild scan aborts the
  whole construction and is modelled by the scan returning `none`.
* `HashMap<String, u64>` is modelled as an association list with
  insert-replaces-previous-binding semantics (`mapInsert` / `mapLookup`).
-/

abbrev Bytes := List Nat

/-- Big-endian encoding of `n` into `w` bytes, keeping only `n % 256^w`;
models `u32::to_be_bytes` (`w = 4`) and `u128::to_be_bytes` (`w = 16`),
including the silent truncation performed by the `as u32` casts in
`LogEntry::to_binary_log` (src/main.rs lines 113-114). -/
def toBeBytes : Nat → Nat → Bytes
  | 0, _ => []
  | w + 1, n => toBeBytes w (n / 256) ++ [n % 256]

/-- Big-endian decoding of a byte sequence; models `u32::from_be_bytes`
(src/main.rs lines 190, 201, 271-272). -/
def fromBe (l : Bytes) : Nat := l.foldl (fun a b => 256 * a + b) 0

/-- Models `FileExt::read_exact_at`: reads exactly `n` bytes at offset
`off`, failing (short read) when the file is too short. -/
def readExactAt (file : Bytes) (off n : Nat) : Option Bytes :=
  if off + n ≤ file.length then some ((file.drop off).take n) else none

abbrev KeyMap := List (Bytes × Nat)

/-- Models `HashMap::insert`: the new binding replaces any previous binding
of the same key. -/
def mapInsert (k : Bytes) (p : Nat) (m : KeyMap) : KeyMap :=
  (k, p) :: m.filter (fun q => q.1 != k)

/-- Models `HashMap::get`. -/
def mapLookup (k : Bytes) (m : KeyMap) : Option Nat :=
  (m.find? (fun q => q.1 == k)).map (fun q => q.2)

/-- The byte-at-a-time state machine of UTF-8 validation (RFC 3629, as
enforced by Rust `str::from_utf8` and hence `String::from_utf8`).  The
state `(pending, lo, hi)` means: `pending` continuation bytes are still
expected, the next of which must lie in `lo..hi` (every later one in the
plain continuation range `128..191` = `80..BF`).  In the start state
(`pending = 0`) a lead byte is classified: ASCII `00..7F` stands alone;
`C2..DF` opens a 2-byte sequence (one continuation); `E0` expects
`A0..BF` then one continuation (excluding overlong forms), `E1..EC` and
`EE..EF` expect two continuations, `ED` expects `80..9F` then one
continuation (excluding surrogates); `F0` expects `90..BF` then two
continuations, `F1..F3` three continuations, `F4` expects `80..8F` then
two continuations (capping at U+10FFFF); every other lead byte (bare
continuations `80..BF`, overlong leads `C0..C1`, and `F5..FF`) is
rejected, as is input ending mid-sequence. -/
def validUtf8Aux : Nat → Nat → Nat → Bytes → Bool
  | 0, _, _, [] => true
  | _ + 1, _, _, [] => false
  | 0, _, _, b :: l =>
    if b ≤ 127 then validUtf8Aux 0 0 0 l
    else if 194 ≤ b && b ≤ 223 then validUtf8Aux 1 128 191 l
    else if b = 224 then validUtf8Aux 2 160 191 l
    else if (225 ≤ b && b ≤ 236) || b = 238 || b = 239 then validUtf8Aux 2 128 191 l
    else if b = 237 then validUtf8Aux 2 128 159 l
    else if b = 240 then validUtf8Aux 3 144 191 l
    else if 241 ≤ b && b ≤ 243 then validUtf8Aux 3 128 191 l
    else if b = 244 then validUtf8Aux 3 128 143 l
    else false
  | 1, lo, hi, b :: l => if lo ≤ b && b ≤ hi then validUtf8Aux 0 0 0 l else false
  | p + 2, lo, hi, b :: l =>
    if lo ≤ b && b ≤ hi then validUtf8Aux (p + 1) 128 191 l else false

/-- Models the byte-level validation performed by `String::from_utf8`:
`validUtf8 l = true` exactly when `l` is the UTF-8 encoding of a string,
i.e. when `String::from_utf8(l)` succeeds rather than erring (and so its
`.unwrap()` panics exactly when `validUtf8 l = false`). -/
def validUtf8 (l : Bytes) : Bool := validUtf8Aux 0 0 0 l

/-- Models `LogEntry::to_binary_log` (src/main.rs lines 108-137): 16-byte
big-endian `u128` millisecond timestamp, 4-byte big-endian key length
(`key.len() as u32`), 4-byte big-endian value length (`val.len() as u32`),
then the raw key bytes and raw value bytes. -/
def LogEntry.to_binary_log (timestamp : Nat) (key val : Bytes) : Bytes :=
  toBeBytes 16 timestamp ++ toBeBytes 4 key.length ++ toBeBytes 4 val.length ++ key ++ val

/-- Models `struct StorageEngine` (src/main.rs lines 84-92): the open log
file is represented by its byte contents. -/
structure StorageEngine where
  file : Bytes
  key_position_map : KeyMap
  sequence_number : Nat
deriving DecidableEq

/-- The scan loop of `StorageEngine::load_key_pos_map_from_file`
(src/main.rs lines 170-222).  The loop reads, at the current position, the
16-byte timestamp, the 4-byte key length, the 4-byte value length and then
the key bytes; any short read breaks out of the loop.  If the key bytes are
not valid UTF-8, `String::from_utf8(key_buffer).unwrap()` (src/main.rs line
212) panics and aborts the whole rebuild, modelled by the `none` result.
Otherwise the loop records `key -> current_pos` (overwriting earlier
bindings), increments the sequence number, and advances by
`24 + key_len + val_len`.  The `fuel` argument only bounds the recursion;
`load_key_pos_map_from_file` supplies `file.length + 1`, which is enough
for the whole scan because every iteration requires `pos < file.length` and
advances `pos` by at least 24 (theorem `loadLoop_fuel_sufficient` below). -/
def loadLoop (file : Bytes) : Nat → Nat → KeyMap → Nat → Option (KeyMap × Nat)
  | 0, _, m, s => some (m, s)
  | fuel + 1, pos, m, s =>
    if pos < file.length then
      match readExactAt file pos 16 with
      | none => some (m, s)
      | some _ =>
        match readExactAt file (pos + 16) 4 with
        | none => some (m, s)
        | some klb =>
          match readExactAt file (pos + 20) 4 with
          | none => some (m, s)
          | some vlb =>
            match readExactAt file (pos + 24) (fromBe klb) with
            | none => some (m, s)
            | some key =>
              if validUtf8 key then
                loadLoop file fuel (pos + (24 + fromBe klb + fromBe vlb))
                  (mapInsert key pos m) (s + 1)
              else none
    else some (m, s)

/-- Models `StorageEngine::load_key_pos_map_from_file` (src/main.rs lines
161-225) as invoked from the constructor: it rebuilds the key-to-offset map
by scanning the whole file from offset 0, and counts the scanned entries
into the sequence number (which is 0 at construction time).  A `none`
result models the `String::from_utf8(key_buffer).unwrap()` panic on invalid
UTF-8 key bytes (src/main.rs line 212). -/
def StorageEngine.load_key_pos_map_from_file (file : Bytes) : Option (KeyMap × Nat) :=
  loadLoop file (file.length + 1) 0 [] 0

/-- Models `StorageEngine::new` (src/main.rs lines 141-159): the engine is
built over the given file contents and the index is rebuilt by scanning;
`none` models the process aborting when the rebuild scan panics on invalid
UTF-8 key bytes — the engine then never comes into existence. -/
def StorageEngine.new (file : Bytes) : Option StorageEngine :=
  match StorageEngine.load_key_pos_map_from_file file with
  | none => none
  | some r =>
    some { file := file, key_position_map := r.1, sequence_number := r.2 }

/-- The engine `StorageEngine::new` produces over an empty (freshly
created) log file: empty index, sequence number 0.  Theorem `new_nil`
below checks `StorageEngine.new [] = some emptyEngine`. -/
def emptyEngine : StorageEngine :=
  { file := [], key_position_map := [], sequence_number := 0 }

/-- Models `StorageEngine::set` (src/main.rs lines 237-251):
`write_all_at(entry, file_len)` writes the encoded entry at the current end
of the file, then `key -> file_len` is recorded in the index.  The
timestamp (`SystemTime::now()` in the source) is passed explicitly. -/
def StorageEngine.set (e : StorageEngine) (timestamp : Nat) (key val : Bytes) :
    StorageEngine :=
  { file := e.file ++ LogEntry.to_binary_log timestamp key val
    key_position_map := mapInsert key e.file.length e.key_position_map
    sequence_number := e.sequence_number + 1 }

/-- Models `StorageEngine::delete` (src/main.rs lines 286-288): a delete is
exactly a `set` of the empty value. -/
def StorageEngine.delete (e : StorageEngine) (timestamp : Nat) (key : Bytes) :
    StorageEngine :=
  e.set timestamp key []

/-- Result of `StorageEngine::get`: `panic` models the `.unwrap()` calls —
on a failed `read_exact_at` and on `String::from_utf8` of value bytes that
are not valid UTF-8 (src/main.rs line 283); `notFound` models returning
`None`. -/
inductive GetResult where
  | panic
  | notFound
  | found (v : Bytes)
deriving DecidableEq

/-- Models `StorageEngine::get` (src/main.rs lines 253-284): look up the
entry offset; read the 4-byte key length at `pos + 16` and the 4-byte value
length at `pos + 20`; a zero value length is a tombstone (`None`); otherwise
read `val_len` bytes at `pos + 24 + key_len` and unwrap
`String::from_utf8` of them — a panic when they are not valid UTF-8
(src/main.rs line 283). -/
def StorageEngine.get (e : StorageEngine) (key : Bytes) : GetResult :=
  match mapLookup key e.key_position_map with
  | none => .notFound
  | some pos =>
    match readExactAt e.file (pos + 16) 4 with
    | none => .panic
    | some klb =>
      match readExactAt e.file (pos + 20) 4 with
      | none => .panic
      | some vlb =>
        if fromBe vlb = 0 then .notFound
        else
          match readExactAt e.file (pos + 24 + fromBe klb) (fromBe vlb) with
          | none => .panic
          | some v => if validUtf8 v then .found v else .panic

/-- Decoding one encoded log entry from its leading bytes, assembled from
the readers in the source: the timestamp/key-length/value-length/key reads
of `load_key_pos_map_from_file` (src/main.rs lines 170-212) and the value
read of `get` at offset `24 + key_len` (src/main.rs lines 278-283). -/
def decodeEntry (b : Bytes) : Option (Nat × Bytes × Bytes) :=
  match readExactAt b 0 16, readExactAt b 16 4, readExactAt b 20 4 with
  | some tsb, some klb, some vlb =>
    match readExactAt b 24 (fromBe klb), readExactAt b (24 + fromBe klb) (fromBe vlb) with
    | some k, some v => some (fromBe tsb, k, v)
    | _, _ => none
  | _, _, _ => none

/-- One engine operation, as issued by a caller. -/
inductive Op where
  | set (timestamp : Nat) (key val : Bytes)
  | del (timestamp : Nat) (key : Bytes)

def applyOp (e : StorageEngine) : Op → StorageEngine
  | .set ts k v => e.set ts k v
  | .del ts k => e.delete ts k

/-- The engine state after a fresh start on an empty file (`emptyEngine`,
which is what `StorageEngine.new []` successfully constructs — theorem
`new_nil`) followed by a sequence of set/delete operations. -/
def run (ops : List Op) : StorageEngine :=
  ops.foldl applyOp emptyEngine

/-- The bytes `get` returns for an entry with key `k` and stored value `V`:
`val_len`-field bytes taken at offset `key_len`-field into the payload
`k ++ V` (both length fields wrap modulo `2^32`). -/
def liveVal (k V : Bytes) : Bytes :=
  ((k ++ V).drop (k.length % 2 ^ 32)).take (V.length % 2 ^ 32)

/-- The live key/value pairs of an engine: for each key in the index, the
value `get` currently returns, skipping tombstoned (not-found) keys. -/
def livePairs (e : StorageEngine) : List (Bytes × Bytes) :=
  e.key_position_map.filterMap (fun q =>
    match e.get q.1 with
    | .found v => some (q.1, v)
    | _ => none)

/-- Modelled from the spec: `StorageEngine::compact` in the source
(src/main.rs lines 227-235) is an unconditional `todo!()` stub (its trailing
copy loop is dead code and never swaps files), so compaction is modelled
from spec section 4.5: start from a new empty log, for each live key of the
Key Index (tombstoned keys are skipped) fetch its current value via `get`
and append a fresh entry with a new timestamp, building the new index as it
goes, then atomically swap the new file and index in as the engine state.
Per spec section 4.5.4, any failure before the swap — here, a panicking
`get` on an indexed key — makes compaction abort, discarding the temporary
file and leaving the original log and index untouched. -/
def StorageEngine.compact (e : StorageEngine) (timestamp : Nat) : StorageEngine :=
  if ∃ q ∈ e.key_position_map, e.get q.1 = GetResult.panic then e
  else run ((livePairs e).map (fun p => Op.set timestamp p.1 p.2))

/-- The log entry (timestamp, key, value) appended by each operation. -/
def opsToEntries (ops : List Op) : List (Nat × Bytes × Bytes) :=
  ops.map (fun o => match o with
    | .set ts k v => (ts, k, v)
    | .del ts k => (ts, k, []))

/-- Concatenation of the encodings of a list of entries. -/
def encodeAll : List (Nat × Bytes × Bytes) → Bytes
  | [] => []
  | (ts, k, v) :: L => LogEntry.to_binary_log ts k v ++ encodeAll L

/-- The key map and sequence number produced by inserting the entries of
`L` in order, with the first entry placed at offset `pos`. -/
def buildMap : Nat → List (Nat × Bytes × Bytes) → KeyMap → Nat → KeyMap × Nat
  | _, [], m, s => (m, s)
  | pos, (_, k, v) :: L, m, s =>
    buildMap (pos + (24 + k.length + v.length)) L (mapInsert k pos m) (s + 1)

/-- Entries whose key and value each fit the 4-byte length fields. -/
def inLimits (L : List (Nat × Bytes × Bytes)) : Prop :=
  ∀ x ∈ L, x.2.1.length < 2 ^ 32 ∧ x.2.2.length < 2 ^ 32

/-- Operations whose key and value each fit the 4-byte length fields. -/
def opsInLimits (ops : List Op) : Prop := inLimits (opsToEntries ops)

/-- Entries whose keys are byte encodings of strings (valid UTF-8), as the
keys of every real operation are — `set`, `get` and `delete` take Rust
`String` arguments. -/
def keysUtf8 (L : List (Nat × Bytes × Bytes)) : Prop :=
  ∀ x ∈ L, validUtf8 x.2.1 = true

/-- Entries whose values are byte encodings of strings (valid UTF-8), as
the values of every real operation are. -/
def valsUtf8 (L : List (Nat × Bytes × Bytes)) : Prop :=
  ∀ x ∈ L, validUtf8 x.2.2 = true

/-- Operations whose keys are byte encodings of strings (valid UTF-8). -/
def opsKeysUtf8 (ops : List Op) : Prop := keysUtf8 (opsToEntries ops)

/-- Operations whose values are byte encodings of strings (valid UTF-8). -/
def opsValsUtf8 (ops : List Op) : Prop := valsUtf8 (opsToEntries ops)

instance : DecidablePred inLimits := fun L =>
  List.decidableBAll _ L

instance : DecidablePred opsInLimits := fun ops =>
  inferInstanceAs (Decidable (inLimits (opsToEntries ops)))

instance : DecidablePred keysUtf8 := fun L =>
  List.decidableBAll _ L

instance : DecidablePred valsUtf8 := fun L =>
  List.decidableBAll _ L

instance : DecidablePred opsKeysUtf8 := fun ops =>
  inferInstanceAs (Decidable (keysUtf8 (opsToEntries ops)))

instance : DecidablePred opsValsUtf8 := fun ops =>
  inferInstanceAs (Decidable (valsUtf8 (opsToEntries ops)))

/-- A key map whose keys are pairwise distinct. -/
def NodupKeys (m : KeyMap) : Prop := (m.map (fun q => q.1)).Nodup

/-! ### Byte-codec lemmas -/

theorem length_toBeBytes (w n : Nat) : (toBeBytes w n).length = w := by
  induction w generalizing n with
  | zero => rfl
  | succ w ih => simp [toBeBytes, ih]

theorem fromBe_toBeBytes (w n : Nat) : fromBe (toBeBytes w n) = n % 256 ^ w := by
  induction w generalizing n with
  | zero => simp [toBeBytes, fromBe, Nat.mod_one]
  | succ w ih =>
    have h1 : fromBe (toBeBytes w (n / 256) ++ [n % 256])
        = 256 * fromBe (toBeBytes w (n / 256)) + n % 256 := by
      simp [fromBe, List.foldl_append]
    have h2 : n % 256 ^ (w + 1) = 256 * (n / 256 % 256 ^ w) + n % 256 := by
      rw [pow_succ, Nat.mul_comm (256 ^ w) 256, Nat.mod_mul]
      ring
    simp only [toBeBytes, h1, ih, h2]

theorem fromBe_toBeBytes4 (n : Nat) : fromBe (toBeBytes 4 n) = n % 2 ^ 32 := by
  have : (256 : Nat) ^ 4 = 2 ^ 32 := by norm_num
  rw [fromBe_toBeBytes, this]

theorem fromBe_toBeBytes16 (n : Nat) : fromBe (toBeBytes 16 n) = n % 2 ^ 128 := by
  have : (256 : Nat) ^ 16 = 2 ^ 128 := by norm_num
  rw [fromBe_toBeBytes, this]

/-! ### Slice-read lemmas -/

theorem drop_append_add (A C : Bytes) (off : Nat) :
    (A ++ C).drop (A.length + off) = C.drop off := by
  rw [← List.drop_drop, List.drop_left]

theorem take_append_le (C B : Bytes) (n : Nat) (h : n ≤ C.length) :
    (C ++ B).take n = C.take n := by
  rw [List.take_append_eq_append_take, Nat.sub_eq_zero_of_le h, List.take_zero,
    List.append_nil]

theorem readExactAt_eq_some {file : Bytes} {off n : Nat} {w : Bytes}
    (hle : off + n ≤ file.length) (hw : (file.drop off).take n = w) :
    readExactAt file off n = some w := by
  simp [readExactAt, hle, hw]

theorem readExactAt_length {file : Bytes} {off n : Nat} {w : Bytes}
    (h : readExactAt file off n = some w) : w.length = n := by
  by_cases hle : off + n ≤ file.length
  · simp only [readExactAt, if_pos hle, Option.some.injEq] at h
    subst h
    rw [List.length_take, List.length_drop]
    omega
  · simp [readExactAt, hle] at h

theorem readExactAt_bound {file : Bytes} {off n : Nat} {w : Bytes}
    (h : readExactAt file off n = some w) : off + n ≤ file.length := by
  by_cases hle : off + n ≤ file.length
  · exact hle
  · simp [readExactAt, hle] at h

theorem readExactAt_val {file : Bytes} {off n : Nat} {w : Bytes}
    (h : readExactAt file off n = some w) : (file.drop off).take n = w := by
  have hle := readExactAt_bound h
  simp only [readExactAt, if_pos hle, Option.some.injEq] at h
  exact h

/-- A successful read at an offset past a known prefix only depends on the
suffix. -/
theorem readExactAt_seg {C : Bytes} {off n : Nat} {w : Bytes} (A B : Bytes)
    (h : readExactAt C off n = some w) :
    readExactAt (A ++ (C ++ B)) (A.length + off) n = some w := by
  have hb := readExactAt_bound h
  have hv := readExactAt_val h
  apply readExactAt_eq_some
  · rw [List.length_append, List.length_append]
    omega
  · rw [drop_append_add, List.drop_append_eq_append_drop,
      take_append_le _ _ _ (by rw [List.length_drop]; omega)]
    exact hv

theorem readExactAt_full (C : Bytes) : readExactAt C 0 C.length = some C := by
  apply readExactAt_eq_some
  · omega
  · simp

/-! ### Structure of one encoded entry -/

theorem entry_assoc (ts : Nat) (k v : Bytes) :
    LogEntry.to_binary_log ts k v
      = toBeBytes 16 ts ++ (toBeBytes 4 k.length ++ (toBeBytes 4 v.length ++ (k ++ v))) := by
  simp [LogEntry.to_binary_log, List.append_assoc]

theorem entry_length (ts : Nat) (k v : Bytes) :
    (LogEntry.to_binary_log ts k v).length = 24 + k.length + v.length := by
  simp [LogEntry.to_binary_log, List.length_append, length_toBeBytes]
  omega

/-- Reading a full middle segment of a concatenation returns that segment. -/
theorem readExactAt_mid (A C B full : Bytes) (off n : Nat)
    (hfull : full = A ++ (C ++ B)) (hoff : off = A.length) (hn : n = C.length) :
    readExactAt full off n = some C := by
  subst hfull hoff hn
  have h := readExactAt_seg A B (readExactAt_full C)
  simpa using h

theorem entry_read_ts (ts : Nat) (k v : Bytes) :
    readExactAt (LogEntry.to_binary_log ts k v) 0 16 = some (toBeBytes 16 ts) := by
  apply readExactAt_mid []
    (toBeBytes 16 ts) (toBeBytes 4 k.length ++ (toBeBytes 4 v.length ++ (k ++ v)))
  · simpa using entry_assoc ts k v
  · rfl
  · exact (length_toBeBytes 16 ts).symm

theorem entry_read_klb (ts : Nat) (k v : Bytes) :
    readExactAt (LogEntry.to_binary_log ts k v) 16 4 = some (toBeBytes 4 k.length) := by
  apply readExactAt_mid (toBeBytes 16 ts)
    (toBeBytes 4 k.length) (toBeBytes 4 v.length ++ (k ++ v))
  · exact entry_assoc ts k v
  · exact (length_toBeBytes 16 ts).symm
  · exact (length_toBeBytes 4 k.length).symm

theorem entry_read_vlb (ts : Nat) (k v : Bytes) :
    readExactAt (LogEntry.to_binary_log ts k v) 20 4 = some (toBeBytes 4 v.length) := by
  apply readExactAt_mid (toBeBytes 16 ts ++ toBeBytes 4 k.length)
    (toBeBytes 4 v.length) (k ++ v)
  · simp [LogEntry.to_binary_log, List.append_assoc]
  · simp [List.length_append, length_toBeBytes]
  · exact (length_toBeBytes 4 v.length).symm

theorem entry_read_key (ts : Nat) (k v : Bytes) :
    readExactAt (LogEntry.to_binary_log ts k v) 24 k.length = some k := by
  apply readExactAt_mid (toBeBytes 16 ts ++ toBeBytes 4 k.length ++ toBeBytes 4 v.length)
    k v
  · simp [LogEntry.to_binary_log, List.append_assoc]
  · simp [List.length_append, length_toBeBytes]
  · rfl

theorem entry_read_payload (ts : Nat) (k v : Bytes) (off n : Nat)
    (h : off + n ≤ k.length + v.length) :
    readExactAt (LogEntry.to_binary_log ts k v) (24 + off) n
      = some (((k ++ v).drop off).take n) := by
  rw [show LogEntry.to_binary_log ts k v
      = (toBeBytes 16 ts ++ toBeBytes 4 k.length ++ toBeBytes 4 v.length) ++ (k ++ v) by
    simp [LogEntry.to_binary_log, List.append_assoc]]
  apply readExactAt_eq_some
  · simp [List.length_append, length_toBeBytes]
    omega
  · rw [show 24 + off
        = (toBeBytes 16 ts ++ toBeBytes 4 k.length ++ toBeBytes 4 v.length).length + off by
      simp [List.length_append, length_toBeBytes]]
    rw [drop_append_add]

/-! ### Key map lemmas -/

theorem mapLookup_nil (k : Bytes) : mapLookup k [] = none := rfl

theorem mapLookup_insert_self (k : Bytes) (p : Nat) (m : KeyMap) :
    mapLookup k (mapInsert k p m) = some p := by
  simp [mapLookup, mapInsert, List.find?]

theorem find?_filter_ne (k k' : Bytes) (m : KeyMap) (h : k' ≠ k) :
    (m.filter (fun q => q.1 != k)).find? (fun q => q.1 == k')
      = m.find? (fun q => q.1 == k') := by
  induction m with
  | nil => rfl
  | cons q m ih =>
    by_cases hq : q.1 = k
    · have h1 : (q.1 != k) = false := by simp [hq]
      have h2 : (q.1 == k') = false := by simp [hq]; exact fun hc => h hc.symm
      simp [List.filter_cons, h1, List.find?_cons, h2, ih]
    · have h1 : (q.1 != k) = true := by simp [hq]
      by_cases hq' : q.1 = k'
      · simp [List.filter_cons, h1, List.find?_cons, hq', h]
      · have h2 : (q.1 == k') = false := by simp [hq']
        simp [List.filter_cons, h1, List.find?_cons, h2, ih]

theorem mapLookup_insert_ne (k k' : Bytes) (p : Nat) (m : KeyMap) (h : k' ≠ k) :
    mapLookup k' (mapInsert k p m) = mapLookup k' m := by
  have h2 : (k == k') = false := by
    simp
    exact fun hc => h hc.symm
  simp only [mapLookup, mapInsert, List.find?_cons, h2]
  rw [find?_filter_ne k k' m h]

theorem mapLookup_mem {k : Bytes} {p : Nat} {m : KeyMap}
    (h : mapLookup k m = some p) : (k, p) ∈ m := by
  simp only [mapLookup, Option.map_eq_some'] at h
  obtain ⟨q, hq, hq2⟩ := h
  have hk := List.find?_some hq
  have hmem := List.mem_of_find?_eq_some hq
  simp only [beq_iff_eq] at hk
  have : q = (k, p) := by
    cases q
    simp_all
  rwa [this] at hmem

theorem nodupKeys_mapInsert (k : Bytes) (p : Nat) (m : KeyMap) (h : NodupKeys m) :
    NodupKeys (mapInsert k p m) := by
  unfold NodupKeys mapInsert
  rw [List.map_cons, List.nodup_cons]
  constructor
  · intro hmem
    simp only [List.mem_map] at hmem
    obtain ⟨q, hq, hq2⟩ := hmem
    have := List.of_mem_filter hq
    simp [hq2] at this
  · exact h.sublist ((List.filter_sublist m).map _)

/-! ### UTF-8 validity lemmas -/

/-- Boundary vectors of the validator, matching the verdicts of Rust
`str::from_utf8`: ASCII; a complete 2-byte sequence; a lone lead byte; a
bare continuation byte; the overlong forms `C1 BF` and `E0 9F 80`; the
smallest 3-byte scalar `E0 A0 80`; the surrogate boundary (`ED 9F BF` =
U+D7FF accepted, `ED A0 80` = U+D800 rejected); the largest scalar
`F4 8F BF BF` = U+10FFFF and the first value beyond it `F4 90 80 80`; the
first 4-byte scalar `F0 90 80 80`; an out-of-range lead `F5`; and a
truncated 3-byte sequence. -/
theorem validUtf8_vectors :
    validUtf8 [97, 98, 99] = true ∧ validUtf8 [195, 168] = true
    ∧ validUtf8 [195] = false ∧ validUtf8 [128] = false
    ∧ validUtf8 [193, 191] = false ∧ validUtf8 [224, 159, 128] = false
    ∧ validUtf8 [224, 160, 128] = true
    ∧ validUtf8 [237, 159, 191] = true ∧ validUtf8 [237, 160, 128] = false
    ∧ validUtf8 [244, 143, 191, 191] = true ∧ validUtf8 [244, 144, 128, 128] = false
    ∧ validUtf8 [240, 144, 128, 128] = true ∧ validUtf8 [245, 128, 128, 128] = false
    ∧ validUtf8 [226, 130, 172] = true ∧ validUtf8 [226, 130] = false := by
  decide

theorem validUtf8_cons_ascii {b : Nat} (hb : b ≤ 127) (l : Bytes) :
    validUtf8 (b :: l) = validUtf8 l := by
  show validUtf8Aux 0 0 0 (b :: l) = validUtf8Aux 0 0 0 l
  simp only [validUtf8Aux]
  rw [if_pos hb]

theorem validUtf8_replicate {b : Nat} (hb : b ≤ 127) (n : Nat) :
    validUtf8 (List.replicate n b) = true := by
  induction n with
  | zero => rfl
  | succ n ih => rw [List.replicate_succ, validUtf8_cons_ascii hb, ih]

/-- A 2-byte sequence (lead `C2..DF`, continuation `80..BF`) followed by a
valid tail is valid. -/
theorem validUtf8_cons2 {b0 b1 : Nat} (h0l : 194 ≤ b0) (h0h : b0 ≤ 223)
    (h1l : 128 ≤ b1) (h1h : b1 ≤ 191) (l : Bytes) :
    validUtf8 (b0 :: b1 :: l) = validUtf8 l := by
  show validUtf8Aux 0 0 0 (b0 :: b1 :: l) = validUtf8Aux 0 0 0 l
  simp only [validUtf8Aux]
  rw [if_neg (by omega),
    if_pos (by simp only [Bool.and_eq_true, decide_eq_true_eq]; exact ⟨h0l, h0h⟩),
    if_pos (by simp only [Bool.and_eq_true, decide_eq_true_eq]; exact ⟨h1l, h1h⟩)]

/-! ### Scan-loop lemmas -/

theorem loadLoop_stop (file : Bytes) (fuel pos : Nat) (m : KeyMap) (s : Nat)
    (h : ¬ pos < file.length) : loadLoop file fuel pos m s = some (m, s) := by
  cases fuel with
  | zero => rfl
  | succ f => simp [loadLoop, h]

theorem loadLoop_step (file : Bytes) (fuel pos : Nat) (m : KeyMap) (s : Nat)
    (tsb klb vlb key : Bytes) (h1 : pos < file.length)
    (hts : readExactAt file pos 16 = some tsb)
    (hklb : readExactAt file (pos + 16) 4 = some klb)
    (hvlb : readExactAt file (pos + 20) 4 = some vlb)
    (hkey : readExactAt file (pos + 24) (fromBe klb) = some key)
    (hkv : validUtf8 key = true) :
    loadLoop file (fuel + 1) pos m s
      = loadLoop file fuel (pos + (24 + fromBe klb + fromBe vlb))
          (mapInsert key pos m) (s + 1) := by
  simp [loadLoop, h1, hts, hklb, hvlb, hkey, hkv]

/-- On key bytes that are not valid UTF-8, the scan aborts: the
`String::from_utf8(key_buffer).unwrap()` panic of src/main.rs line 212. -/
theorem loadLoop_abort (file : Bytes) (fuel pos : Nat) (m : KeyMap) (s : Nat)
    (tsb klb vlb key : Bytes) (h1 : pos < file.length)
    (hts : readExactAt file pos 16 = some tsb)
    (hklb : readExactAt file (pos + 16) 4 = some klb)
    (hvlb : readExactAt file (pos + 20) 4 = some vlb)
    (hkey : readExactAt file (pos + 24) (fromBe klb) = some key)
    (hkv : validUtf8 key = false) :
    loadLoop file (fuel + 1) pos m s = none := by
  simp [loadLoop, h1, hts, hklb, hvlb, hkey, hkv]

theorem loadLoop_stop_key (file : Bytes) (fuel pos : Nat) (m : KeyMap) (s : Nat)
    (tsb klb vlb : Bytes) (h1 : pos < file.length)
    (hts : readExactAt file pos 16 = some tsb)
    (hklb : readExactAt file (pos + 16) 4 = some klb)
    (hvlb : readExactAt file (pos + 20) 4 = some vlb)
    (hkey : readExactAt file (pos + 24) (fromBe klb) = none) :
    loadLoop file (fuel + 1) pos m s = some (m, s) := by
  simp [loadLoop, h1, hts, hklb, hvlb, hkey]

theorem loadLoop_stop_ts (file : Bytes) (fuel pos : Nat) (m : KeyMap) (s : Nat)
    (h1 : pos < file.length)
    (hts : readExactAt file pos 16 = none) :
    loadLoop file (fuel + 1) pos m s = some (m, s) := by
  simp [loadLoop, h1, hts]

theorem loadLoop_stop_klb (file : Bytes) (fuel pos : Nat) (m : KeyMap) (s : Nat)
    (tsb : Bytes) (h1 : pos < file.length)
    (hts : readExactAt file pos 16 = some tsb)
    (hklb : readExactAt file (pos + 16) 4 = none) :
    loadLoop file (fuel + 1) pos m s = some (m, s) := by
  simp [loadLoop, h1, hts, hklb]

theorem loadLoop_stop_vlb (file : Bytes) (fuel pos : Nat) (m : KeyMap) (s : Nat)
    (tsb klb : Bytes) (h1 : pos < file.length)
    (hts : readExactAt file pos 16 = some tsb)
    (hklb : readExactAt file (pos + 16) 4 = some klb)
    (hvlb : readExactAt file (pos + 20) 4 = none) :
    loadLoop file (fuel + 1) pos m s = some (m, s) := by
  simp [loadLoop, h1, hts, hklb, hvlb]

theorem loadLoop_fuel_sufficient (file : Bytes) :
    ∀ fuel fuel' pos m s, file.length ≤ pos + 24 * fuel → fuel ≤ fuel' →
      loadLoop file fuel' pos m s = loadLoop file fuel pos m s := by
  intro fuel
  induction fuel with
  | zero =>
    intro fuel' pos m s hb _
    have h : ¬ pos < file.length := by omega
    rw [loadLoop_stop _ _ _ _ _ h, loadLoop_stop _ _ _ _ _ h]
  | succ f ih =>
    intro fuel' pos m s hb hle
    obtain ⟨f', rfl⟩ : ∃ f', fuel' = f' + 1 := ⟨fuel' - 1, by omega⟩
    by_cases h1 : pos < file.length
    · cases hts : readExactAt file pos 16 with
      | none => rw [loadLoop_stop_ts _ _ _ _ _ h1 hts, loadLoop_stop_ts _ _ _ _ _ h1 hts]
      | some tsb =>
        cases hklb : readExactAt file (pos + 16) 4 with
        | none =>
          rw [loadLoop_stop_klb _ _ _ _ _ _ h1 hts hklb,
            loadLoop_stop_klb _ _ _ _ _ _ h1 hts hklb]
        | some klb =>
          cases hvlb : readExactAt file (pos + 20) 4 with
          | none =>
            rw [loadLoop_stop_vlb _ _ _ _ _ _ _ h1 hts hklb hvlb,
              loadLoop_stop_vlb _ _ _ _ _ _ _ h1 hts hklb hvlb]
          | some vlb =>
            cases hkey : readExactAt file (pos + 24) (fromBe klb) with
            | none =>
              rw [loadLoop_stop_key _ _ _ _ _ _ _ _ h1 hts hklb hvlb hkey,
                loadLoop_stop_key _ _ _ _ _ _ _ _ h1 hts hklb hvlb hkey]
            | some key =>
              cases hkv : validUtf8 key with
              | false =>
                rw [loadLoop_abort _ _ _ _ _ _ _ _ _ h1 hts hklb hvlb hkey hkv,
                  loadLoop_abort _ _ _ _ _ _ _ _ _ h1 hts hklb hvlb hkey hkv]
              | true =>
                rw [loadLoop_step _ _ _ _ _ _ _ _ _ h1 hts hklb hvlb hkey hkv,
                  loadLoop_step _ _ _ _ _ _ _ _ _ h1 hts hklb hvlb hkey hkv]
                exact ih f' (pos + (24 + fromBe klb + fromBe vlb))
                  (mapInsert key pos m) (s + 1) (by omega) (by omega)
    · rw [loadLoop_stop _ _ _ _ _ h1, loadLoop_stop _ _ _ _ _ h1]

/-! ### The value returned by a lookup of an entry -/

theorem liveVal_of_lt {k V : Bytes} (hk : k.length < 2 ^ 32) (hv : V.length < 2 ^ 32) :
    liveVal k V = V := by
  unfold liveVal
  rw [Nat.mod_eq_of_lt hk, Nat.mod_eq_of_lt hv, List.drop_left, List.take_length]

theorem liveVal_length (k V : Bytes) : (liveVal k V).length = V.length % 2 ^ 32 := by
  unfold liveVal
  rw [List.length_take, List.length_drop, List.length_append]
  have h1 := Nat.mod_le k.length (2 ^ 32)
  have h2 := Nat.mod_le V.length (2 ^ 32)
  omega

theorem mod_add_cases (K n : Nat) (h : n < 2 ^ 32) :
    K % 2 ^ 32 + n ≤ K ∨ K % 2 ^ 32 = K := by
  have hd := Nat.div_add_mod K (2 ^ 32)
  by_cases hK : K < 2 ^ 32
  · right
    exact Nat.mod_eq_of_lt hK
  · left
    have hr : K % 2 ^ 32 < 2 ^ 32 := Nat.mod_lt _ (by norm_num)
    omega

theorem liveVal_idem (k V : Bytes) : liveVal k (liveVal k V) = liveVal k V := by
  have hG : (liveVal k V).length = V.length % 2 ^ 32 := liveVal_length k V
  have hvlt : V.length % 2 ^ 32 < 2 ^ 32 := Nat.mod_lt _ (by norm_num)
  have hmod : (liveVal k V).length % 2 ^ 32 = V.length % 2 ^ 32 := by
    rw [hG, Nat.mod_eq_of_lt hvlt]
  rcases mod_add_cases k.length (V.length % 2 ^ 32) hvlt with hle | heq
  · have hstep : ∀ W : Bytes,
        ((k ++ W).drop (k.length % 2 ^ 32)).take (V.length % 2 ^ 32)
          = (k.drop (k.length % 2 ^ 32)).take (V.length % 2 ^ 32) := by
      intro W
      rw [List.drop_append_eq_append_drop,
        Nat.sub_eq_zero_of_le (Nat.mod_le k.length (2 ^ 32)), List.drop_zero,
        take_append_le _ _ _ (by rw [List.length_drop]; omega)]
    show ((k ++ liveVal k V).drop (k.length % 2 ^ 32)).take ((liveVal k V).length % 2 ^ 32)
      = liveVal k V
    rw [hmod, hstep]
    exact (hstep V).symm
  · show ((k ++ liveVal k V).drop (k.length % 2 ^ 32)).take ((liveVal k V).length % 2 ^ 32)
      = liveVal k V
    rw [hmod, heq, List.drop_left, ← hG, List.take_length]

/-- The behaviour of `get` on a key whose index entry points at a complete
encoded entry for that same key: a zero (wrapped) value-length field is a
tombstone; otherwise `get` reads the `val_len`-field bytes found at offset
`24 + key_len`-field inside the entry and returns them when they are valid
UTF-8, panicking (the `String::from_utf8` unwrap) when they are not. -/
theorem get_entry_at (e : StorageEngine) (A B : Bytes) (ts : Nat) (k V : Bytes)
    (hf : e.file = A ++ (LogEntry.to_binary_log ts k V ++ B))
    (hp : mapLookup k e.key_position_map = some A.length) :
    e.get k = if V.length % 2 ^ 32 = 0 then GetResult.notFound
      else if validUtf8 (liveVal k V) then GetResult.found (liveVal k V)
      else GetResult.panic := by
  have hklb : readExactAt e.file (A.length + 16) 4 = some (toBeBytes 4 k.length) := by
    rw [hf]
    exact readExactAt_seg A B (entry_read_klb ts k V)
  have hvlb : readExactAt e.file (A.length + 20) 4 = some (toBeBytes 4 V.length) := by
    rw [hf]
    exact readExactAt_seg A B (entry_read_vlb ts k V)
  have hval : readExactAt e.file (A.length + 24 + k.length % 2 ^ 32) (V.length % 2 ^ 32)
      = some (liveVal k V) := by
    rw [hf, Nat.add_assoc]
    have h1 := Nat.mod_le k.length (2 ^ 32)
    have h2 := Nat.mod_le V.length (2 ^ 32)
    have hm := entry_read_payload ts k V (k.length % 2 ^ 32) (V.length % 2 ^ 32)
      (by omega)
    exact readExactAt_seg A B hm
  simp only [StorageEngine.get, hp, hklb, hvlb, fromBe_toBeBytes4, hval]

/-! ### Scanning a file made of complete encoded entries -/

theorem encodeAll_append (L1 L2 : List (Nat × Bytes × Bytes)) :
    encodeAll (L1 ++ L2) = encodeAll L1 ++ encodeAll L2 := by
  induction L1 with
  | nil => simp [encodeAll]
  | cons x L ih =>
    obtain ⟨ts, k, v⟩ := x
    simp [encodeAll, ih]

theorem encodeAll_cons (ts : Nat) (k v : Bytes) (L : List (Nat × Bytes × Bytes)) :
    encodeAll ((ts, k, v) :: L) = LogEntry.to_binary_log ts k v ++ encodeAll L := rfl

theorem length_le_encodeAll (L : List (Nat × Bytes × Bytes)) :
    L.length ≤ (encodeAll L).length := by
  induction L with
  | nil => simp [encodeAll]
  | cons x L ih =>
    obtain ⟨ts, k, v⟩ := x
    simp only [encodeAll, List.length_append, List.length_cons, entry_length]
    omega

/-- Scanning a log that consists of a prefix `A` already scanned followed by
complete in-limits encoded entries whose keys are valid UTF-8 visits
exactly those entries in order, without aborting. -/
theorem load_clean (L : List (Nat × Bytes × Bytes)) :
    ∀ (A : Bytes) (fuel : Nat) (m : KeyMap) (s : Nat),
      inLimits L → keysUtf8 L → L.length ≤ fuel →
      loadLoop (A ++ encodeAll L) fuel A.length m s = some (buildMap A.length L m s) := by
  induction L with
  | nil =>
    intro A fuel m s _ _ _
    rw [show buildMap A.length [] m s = (m, s) from rfl]
    apply loadLoop_stop
    simp [encodeAll]
  | cons x L ih =>
    obtain ⟨ts, k, v⟩ := x
    intro A fuel m s hlim hutf hfuel
    obtain ⟨f, rfl⟩ : ∃ f, fuel = f + 1 := ⟨fuel - 1, by
      simp only [List.length_cons] at hfuel
      omega⟩
    have hk : k.length < 2 ^ 32 := (hlim _ (List.mem_cons_self _ _)).1
    have hv : v.length < 2 ^ 32 := (hlim _ (List.mem_cons_self _ _)).2
    have hfile : A ++ encodeAll ((ts, k, v) :: L)
        = A ++ (LogEntry.to_binary_log ts k v ++ encodeAll L) := rfl
    rw [hfile]
    have h1 : A.length < (A ++ (LogEntry.to_binary_log ts k v ++ encodeAll L)).length := by
      simp [List.length_append, entry_length]
    have hts : readExactAt (A ++ (LogEntry.to_binary_log ts k v ++ encodeAll L))
        A.length 16 = some (toBeBytes 16 ts) := by
      have h := readExactAt_seg A (encodeAll L) (entry_read_ts ts k v)
      simpa using h
    have hklb : readExactAt (A ++ (LogEntry.to_binary_log ts k v ++ encodeAll L))
        (A.length + 16) 4 = some (toBeBytes 4 k.length) :=
      readExactAt_seg A (encodeAll L) (entry_read_klb ts k v)
    have hvlb : readExactAt (A ++ (LogEntry.to_binary_log ts k v ++ encodeAll L))
        (A.length + 20) 4 = some (toBeBytes 4 v.length) :=
      readExactAt_seg A (encodeAll L) (entry_read_vlb ts k v)
    have hkb : fromBe (toBeBytes 4 k.length) = k.length := by
      rw [fromBe_toBeBytes4, Nat.mod_eq_of_lt hk]
    have hvb : fromBe (toBeBytes 4 v.length) = v.length := by
      rw [fromBe_toBeBytes4, Nat.mod_eq_of_lt hv]
    have hkey : readExactAt (A ++ (LogEntry.to_binary_log ts k v ++ encodeAll L))
        (A.length + 24) (fromBe (toBeBytes 4 k.length)) = some k := by
      rw [hkb]
      exact readExactAt_seg A (encodeAll L) (entry_read_key ts k v)
    have hkutf : validUtf8 k = true := hutf _ (List.mem_cons_self _ _)
    rw [loadLoop_step _ _ _ _ _ _ _ _ _ h1 hts hklb hvlb hkey hkutf, hkb, hvb]
    have hpos : A.length + (24 + k.length + v.length)
        = (A ++ LogEntry.to_binary_log ts k v).length := by
      rw [List.length_append, entry_length]
    have hassoc : A ++ (LogEntry.to_binary_log ts k v ++ encodeAll L)
        = (A ++ LogEntry.to_binary_log ts k v) ++ encodeAll L :=
      (List.append_assoc _ _ _).symm
    rw [show buildMap A.length ((ts, k, v) :: L) m s
        = buildMap (A.length + (24 + k.length + v.length)) L (mapInsert k A.length m)
          (s + 1) from rfl]
    rw [hpos, hassoc]
    exact ih (A ++ LogEntry.to_binary_log ts k v) f _ _
      (fun x hx => hlim x (List.mem_cons_of_mem _ hx))
      (fun x hx => hutf x (List.mem_cons_of_mem _ hx)) (by
        simp only [List.length_cons] at hfuel
        omega)

/-- Rebuilding the index from a log of complete in-limits entries with
valid-UTF-8 keys does not abort and yields exactly the insertions of those
entries in order. -/
theorem load_of_encodeAll (L : List (Nat × Bytes × Bytes)) (hlim : inLimits L)
    (hutf : keysUtf8 L) :
    StorageEngine.load_key_pos_map_from_file (encodeAll L)
      = some (buildMap 0 L [] 0) := by
  unfold StorageEngine.load_key_pos_map_from_file
  have h := load_clean L [] ((encodeAll L).length + 1) [] 0 hlim hutf
    (by have := length_le_encodeAll L; omega)
  simpa using h

/-- The constructor succeeds on an empty (freshly created) log file,
producing exactly the fresh-start engine `run` begins from. -/
theorem new_nil : StorageEngine.new [] = some emptyEngine := rfl

/-- Constructing over a file whose rebuild scan succeeds yields the engine
holding that file, the scanned index and the scanned entry count; stated
for a symbolic file so that rewriting with it never forces evaluation of
the rebuild scan. -/
theorem new_of_load (file : Bytes) (m : KeyMap) (s : Nat)
    (h : StorageEngine.load_key_pos_map_from_file file = some (m, s)) :
    StorageEngine.new file = some ⟨file, m, s⟩ := by
  unfold StorageEngine.new
  rw [h]

theorem buildMap_snoc (L : List (Nat × Bytes × Bytes)) :
    ∀ (pos : Nat) (m : KeyMap) (s ts : Nat) (k v : Bytes),
      buildMap pos (L ++ [(ts, k, v)]) m s
        = (mapInsert k (pos + (encodeAll L).length) (buildMap pos L m s).1,
           (buildMap pos L m s).2 + 1) := by
  induction L with
  | nil =>
    intro pos m s ts k v
    simp [buildMap, encodeAll]
  | cons y L ih =>
    obtain ⟨ts', k', v'⟩ := y
    intro pos m s ts k v
    rw [List.cons_append,
      show buildMap pos ((ts', k', v') :: (L ++ [(ts, k, v)])) m s
        = buildMap (pos + (24 + k'.length + v'.length)) (L ++ [(ts, k, v)])
          (mapInsert k' pos m) (s + 1) from rfl,
      ih]
    rw [show buildMap pos ((ts', k', v') :: L) m s
        = buildMap (pos + (24 + k'.length + v'.length)) L (mapInsert k' pos m) (s + 1)
        from rfl]
    have harith : pos + (24 + k'.length + v'.length) + (encodeAll L).length
        = pos + (encodeAll ((ts', k', v') :: L)).length := by
      rw [show encodeAll ((ts', k', v') :: L)
          = LogEntry.to_binary_log ts' k' v' ++ encodeAll L from rfl,
        List.length_append, entry_length]
      omega
    rw [harith]

/-- The state representation invariant of an engine produced by `run`: the
file is the concatenation of the entries appended by the operations, and
the index and sequence number are exactly the insertions of those entries. -/
def ReprState (e : StorageEngine) (L : List (Nat × Bytes × Bytes)) : Prop :=
  e.file = encodeAll L
  ∧ e.key_position_map = (buildMap 0 L [] 0).1
  ∧ e.sequence_number = (buildMap 0 L [] 0).2

theorem run_repr (ops : List Op) : ReprState (run ops) (opsToEntries ops) := by
  induction ops using List.reverseRecOn with
  | nil => exact ⟨rfl, rfl, rfl⟩
  | append_singleton ops op ih =>
    obtain ⟨hf, hm, hs⟩ := ih
    have hrun : run (ops ++ [op]) = applyOp (run ops) op := by
      simp [run, List.foldl_append]
    have hstep : ∀ ts k v, ReprState ((run ops).set ts k v)
        (opsToEntries ops ++ [(ts, k, v)]) := by
      intro ts k v
      refine ⟨?_, ?_, ?_⟩
      · show (run ops).file ++ _ = _
        rw [hf, encodeAll_append]
        simp [encodeAll]
      · show mapInsert k (run ops).file.length (run ops).key_position_map = _
        rw [buildMap_snoc, hf, hm]
        simp [List.length_append]
      · show (run ops).sequence_number + 1 = _
        rw [buildMap_snoc, hs]
    cases op with
    | set ts k v =>
      rw [hrun, show opsToEntries (ops ++ [Op.set ts k v])
          = opsToEntries ops ++ [(ts, k, v)] by simp [opsToEntries]]
      exact hstep ts k v
    | del ts k =>
      rw [hrun, show opsToEntries (ops ++ [Op.del ts k])
          = opsToEntries ops ++ [(ts, k, [])] by simp [opsToEntries]]
      exact hstep ts k []

/-! ### Where an index binding of a reachable state points -/

theorem buildMap_lookup_entry (L : List (Nat × Bytes × Bytes)) :
    ∀ (pos0 : Nat) (m : KeyMap) (s : Nat) (k : Bytes) (p : Nat),
      mapLookup k (buildMap pos0 L m s).1 = some p →
      (mapLookup k m = some p ∧ ∀ x ∈ L, x.2.1 ≠ k)
      ∨ ∃ ts V A B, (ts, k, V) ∈ L
          ∧ encodeAll L = A ++ (LogEntry.to_binary_log ts k V ++ B)
          ∧ p = pos0 + A.length := by
  induction L with
  | nil =>
    intro pos0 m s k p h
    left
    exact ⟨h, by simp⟩
  | cons x L ih =>
    obtain ⟨ts', k', v'⟩ := x
    intro pos0 m s k p h
    rw [show buildMap pos0 ((ts', k', v') :: L) m s
        = buildMap (pos0 + (24 + k'.length + v'.length)) L (mapInsert k' pos0 m) (s + 1)
        from rfl] at h
    rcases ih _ _ _ _ _ h with ⟨hm, hall⟩ | ⟨ts, V, A, B, hmem, hsplit, hp⟩
    · by_cases hk : k = k'
      · subst hk
        rw [mapLookup_insert_self] at hm
        have hp := Option.some.inj hm
        right
        refine ⟨ts', v', [], encodeAll L, List.mem_cons_self _ _, ?_, ?_⟩
        · rw [List.nil_append, encodeAll_cons]
        · rw [List.length_nil, Nat.add_zero, ← hp]
      · rw [mapLookup_insert_ne _ _ _ _ hk] at hm
        left
        refine ⟨hm, ?_⟩
        intro x hx
        rcases List.mem_cons.mp hx with rfl | hx'
        · exact fun hc => hk hc.symm
        · exact hall x hx'
    · right
      refine ⟨ts, V, LogEntry.to_binary_log ts' k' v' ++ A, B,
        List.mem_cons_of_mem _ hmem, ?_, ?_⟩
      · rw [encodeAll_cons, hsplit, List.append_assoc]
      · rw [List.length_append, entry_length]
        omega

theorem buildMap_lookup_none (L : List (Nat × Bytes × Bytes)) :
    ∀ (pos : Nat) (m : KeyMap) (s : Nat) (k : Bytes),
      (∀ x ∈ L, x.2.1 ≠ k) → mapLookup k m = none →
      mapLookup k (buildMap pos L m s).1 = none := by
  induction L with
  | nil => intro pos m s k _ hm; exact hm
  | cons x L ih =>
    obtain ⟨ts', k', v'⟩ := x
    intro pos m s k hall hm
    rw [show buildMap pos ((ts', k', v') :: L) m s
        = buildMap (pos + (24 + k'.length + v'.length)) L (mapInsert k' pos m) (s + 1)
        from rfl]
    apply ih
    · intro x hx
      exact hall x (List.mem_cons_of_mem _ hx)
    · have hne : k ≠ k' := fun hc => hall _ (List.mem_cons_self _ _) hc.symm
      rw [mapLookup_insert_ne _ _ _ _ hne]
      exact hm

theorem buildMap_lookup_none_inv (L : List (Nat × Bytes × Bytes)) :
    ∀ (pos : Nat) (m : KeyMap) (s : Nat) (k : Bytes),
      mapLookup k (buildMap pos L m s).1 = none →
      mapLookup k m = none ∧ ∀ x ∈ L, x.2.1 ≠ k := by
  induction L with
  | nil => intro pos m s k h; exact ⟨h, by simp⟩
  | cons x L ih =>
    obtain ⟨ts', k', v'⟩ := x
    intro pos m s k h
    rw [show buildMap pos ((ts', k', v') :: L) m s
        = buildMap (pos + (24 + k'.length + v'.length)) L (mapInsert k' pos m) (s + 1)
        from rfl] at h
    obtain ⟨hm, hall⟩ := ih _ _ _ _ h
    have hne : k ≠ k' := by
      intro hc
      subst hc
      rw [mapLookup_insert_self] at hm
      cases hm
    rw [mapLookup_insert_ne _ _ _ _ hne] at hm
    refine ⟨hm, ?_⟩
    intro x hx
    rcases List.mem_cons.mp hx with rfl | hx'
    · exact fun hc => hne hc.symm
    · exact hall x hx'

/-- In a state reached by `run`, every index binding points at the start of
a complete encoded entry for its own key. -/
theorem run_lookup_entry (ops : List Op) (k : Bytes) (p : Nat)
    (h : mapLookup k (run ops).key_position_map = some p) :
    ∃ ts V A B, (ts, k, V) ∈ opsToEntries ops
      ∧ (run ops).file = A ++ (LogEntry.to_binary_log ts k V ++ B)
      ∧ p = A.length := by
  obtain ⟨hf, hm, _⟩ := run_repr ops
  rw [hm] at h
  rcases buildMap_lookup_entry _ 0 [] 0 k p h with ⟨hnone, _⟩ | ⟨ts, V, A, B, hmem, hsplit, hp⟩
  · cases hnone
  · exact ⟨ts, V, A, B, hmem, by rw [hf, hsplit], by omega⟩

/-- In a reachable state, `get` on any key yields not-found, the
(possibly garbled, when length fields wrapped) `liveVal` slice of some
entry of that key when that slice is valid UTF-8, or a panic (the
`String::from_utf8` unwrap of src/main.rs line 283) when it is not. -/
theorem run_get_spec (ops : List Op) (k : Bytes) :
    (run ops).get k = .notFound
    ∨ (∃ ts V, (ts, k, V) ∈ opsToEntries ops ∧ V.length % 2 ^ 32 ≠ 0
        ∧ validUtf8 (liveVal k V) = true ∧ (run ops).get k = .found (liveVal k V))
    ∨ (∃ ts V, (ts, k, V) ∈ opsToEntries ops ∧ V.length % 2 ^ 32 ≠ 0
        ∧ validUtf8 (liveVal k V) = false ∧ (run ops).get k = .panic) := by
  cases hl : mapLookup k (run ops).key_position_map with
  | none =>
    left
    simp [StorageEngine.get, hl]
  | some p =>
    obtain ⟨ts, V, A, B, hmem, hsplit, hp⟩ := run_lookup_entry ops k p hl
    subst hp
    have hg := get_entry_at (run ops) A B ts k V hsplit hl
    by_cases hz : V.length % 2 ^ 32 = 0
    · left
      rw [hg, if_pos hz]
    · right
      cases hv : validUtf8 (liveVal k V) with
      | true =>
        left
        exact ⟨ts, V, hmem, hz, hv, by rw [hg, if_neg hz, if_pos hv]⟩
      | false =>
        right
        exact ⟨ts, V, hmem, hz, hv, by rw [hg, if_neg hz, if_neg (by rw [hv]; exact
          Bool.false_ne_true)]⟩

theorem run_get_found (ops : List Op) (k G : Bytes)
    (h : (run ops).get k = .found G) :
    G ≠ [] ∧ G.length < 2 ^ 32 ∧ liveVal k G = G ∧ validUtf8 G = true := by
  rcases run_get_spec ops k with hnf | ⟨ts, V, _, hz, hv, hfound⟩ | ⟨ts, V, _, _, _, hpan⟩
  · rw [h] at hnf
    cases hnf
  · have hGV : G = liveVal k V := by
      have := h.symm.trans hfound
      simpa using this
    have hlen : G.length = V.length % 2 ^ 32 := by rw [hGV, liveVal_length]
    refine ⟨?_, ?_, ?_, ?_⟩
    · intro hnil
      rw [hnil] at hlen
      simp at hlen
      exact hz hlen.symm
    · rw [hlen]
      exact Nat.mod_lt _ (by norm_num)
    · rw [hGV, liveVal_idem]
    · rw [hGV]
      exact hv
  · rw [h] at hpan
    cases hpan

theorem get_panic_lookup (e : StorageEngine) (k : Bytes) (h : e.get k = .panic) :
    ∃ p, mapLookup k e.key_position_map = some p := by
  cases hl : mapLookup k e.key_position_map with
  | none =>
    rw [show e.get k = .notFound by simp [StorageEngine.get, hl]] at h
    cases h
  | some p => exact ⟨p, rfl⟩

theorem get_found_lookup (e : StorageEngine) (k G : Bytes) (h : e.get k = .found G) :
    ∃ p, mapLookup k e.key_position_map = some p := by
  cases hl : mapLookup k e.key_position_map with
  | none =>
    rw [show e.get k = .notFound by simp [StorageEngine.get, hl]] at h
    cases h
  | some p => exact ⟨p, rfl⟩

/-- Whenever `get` returns a value, that value is non-empty: it consists of
`val_len`-field bytes with a non-zero field. -/
theorem get_found_ne_nil (e : StorageEngine) (k v : Bytes) (h : e.get k = .found v) :
    v ≠ [] := by
  unfold StorageEngine.get at h
  split at h
  · cases h
  · split at h
    · cases h
    · split at h
      · cases h
      · split at h
        · cases h
        · split at h
          · cases h
          · rename_i hnz x w hw
            split at h
            · cases h
              have hlen := readExactAt_length hw
              intro hnil
              rw [hnil] at hlen
              simp at hlen
              omega
            · cases h

/-! ### Live pairs and compaction -/

theorem livePairs_mem_of_get (e : StorageEngine) (k G : Bytes) (p : Nat)
    (hl : mapLookup k e.key_position_map = some p) (h : e.get k = .found G) :
    (k, G) ∈ livePairs e := by
  unfold livePairs
  apply List.mem_filterMap.mpr
  refine ⟨(k, p), mapLookup_mem hl, ?_⟩
  simp [h]

theorem livePairs_get (e : StorageEngine) (k G : Bytes) (h : (k, G) ∈ livePairs e) :
    e.get k = .found G := by
  unfold livePairs at h
  obtain ⟨q, hq, hfq⟩ := List.mem_filterMap.mp h
  cases hg : e.get q.1 with
  | panic => simp [hg] at hfq
  | notFound => simp [hg] at hfq
  | found v =>
    simp only [hg, Option.some.injEq] at hfq
    obtain ⟨h1, h2⟩ : q.1 = k ∧ v = G := by
      constructor
      · exact congrArg Prod.fst hfq
      · exact congrArg Prod.snd hfq
    rw [← h1, hg, h2]

theorem filterMap_keys_sublist (m : KeyMap) (f : Bytes × Nat → Option (Bytes × Bytes))
    (hf : ∀ q r, f q = some r → r.1 = q.1) :
    ((m.filterMap f).map (fun p => p.1)).Sublist (m.map (fun q => q.1)) := by
  induction m with
  | nil => simp
  | cons q m ih =>
    rw [List.filterMap_cons, List.map_cons]
    cases hq : f q with
    | none => exact List.Sublist.cons _ ih
    | some r =>
      rw [List.map_cons, hf q r hq]
      exact List.Sublist.cons₂ _ ih

theorem livePairs_keys_nodup (e : StorageEngine) (h : NodupKeys e.key_position_map) :
    ((livePairs e).map (fun p => p.1)).Nodup := by
  apply List.Nodup.sublist _ h
  unfold livePairs
  apply filterMap_keys_sublist
  intro q r hq
  cases hg : e.get q.1 with
  | panic => simp [hg] at hq
  | notFound => simp [hg] at hq
  | found v =>
    simp only [hg, Option.some.injEq] at hq
    exact (congrArg Prod.fst hq).symm

theorem buildMap_nodupKeys (L : List (Nat × Bytes × Bytes)) :
    ∀ (pos : Nat) (m : KeyMap) (s : Nat), NodupKeys m →
      NodupKeys (buildMap pos L m s).1 := by
  induction L with
  | nil => intro pos m s h; exact h
  | cons x L ih =>
    obtain ⟨ts', k', v'⟩ := x
    intro pos m s h
    exact ih _ _ _ (nodupKeys_mapInsert _ _ _ h)

theorem run_nodupKeys (ops : List Op) : NodupKeys (run ops).key_position_map := by
  obtain ⟨_, hm, _⟩ := run_repr ops
  rw [hm]
  exact buildMap_nodupKeys _ 0 [] 0 (by simp [NodupKeys])

theorem entries_key_unique (L : List (Nat × Bytes × Bytes))
    (h : (L.map (fun x => x.2.1)).Nodup) {ts1 ts2 : Nat} {k V1 V2 : Bytes}
    (h1 : (ts1, k, V1) ∈ L) (h2 : (ts2, k, V2) ∈ L) : ts1 = ts2 ∧ V1 = V2 := by
  induction L with
  | nil => cases h1
  | cons x L ih =>
    rw [List.map_cons, List.nodup_cons] at h
    rcases List.mem_cons.mp h1 with rfl | h1'
    · rcases List.mem_cons.mp h2 with heq | h2'
      · have := heq.symm
        simp only [Prod.mk.injEq] at this
        exact ⟨this.1, this.2.2⟩
      · exact absurd (List.mem_map.mpr ⟨(ts2, k, V2), h2', rfl⟩) h.1
    · rcases List.mem_cons.mp h2 with rfl | h2'
      · exact absurd (List.mem_map.mpr ⟨(ts1, k, V1), h1', rfl⟩) h.1
      · exact ih h.2 h1' h2'

/-- Compaction (as specified) does not change the result of any `get` on
any reachable state: either some indexed key's value read panics and
compaction aborts with the state untouched, or every copied pair is
reproduced exactly. -/
theorem compact_get (ops : List Op) (ts : Nat) (k : Bytes) :
    ((run ops).compact ts).get k = (run ops).get k := by
  by_cases habort : ∃ q ∈ (run ops).key_position_map,
      (run ops).get q.1 = GetResult.panic
  · rw [show (run ops).compact ts = run ops by
      unfold StorageEngine.compact
      rw [if_pos habort]]
  have hnp : ∀ q ∈ (run ops).key_position_map, ¬ (run ops).get q.1 = GetResult.panic := by
    intro q hq hpan
    exact habort ⟨q, hq, hpan⟩
  have hc : (run ops).compact ts
      = run ((livePairs (run ops)).map (fun p => Op.set ts p.1 p.2)) := by
    unfold StorageEngine.compact
    rw [if_neg habort]
  have hentries : opsToEntries ((livePairs (run ops)).map (fun p => Op.set ts p.1 p.2))
      = (livePairs (run ops)).map (fun p => (ts, p.1, p.2)) := by
    unfold opsToEntries
    rw [List.map_map]
    rfl
  cases hg : (run ops).get k with
  | panic =>
    exfalso
    obtain ⟨p, hl⟩ := get_panic_lookup (run ops) k hg
    exact hnp (k, p) (mapLookup_mem hl) hg
  | notFound =>
    rw [hc]
    have hall : ∀ x ∈ opsToEntries ((livePairs (run ops)).map
        (fun p => Op.set ts p.1 p.2)), x.2.1 ≠ k := by
      rw [hentries]
      intro x hx
      obtain ⟨p, hp, rfl⟩ := List.mem_map.mp hx
      intro hk
      have hpg := livePairs_get (run ops) p.1 p.2 (by simpa using hp)
      rw [show (ts, p.1, p.2).2.1 = p.1 from rfl] at hk
      rw [hk, hg] at hpg
      cases hpg
    have hnone : mapLookup k
        (run ((livePairs (run ops)).map (fun p => Op.set ts p.1 p.2))).key_position_map
        = none := by
      obtain ⟨_, hm2, _⟩ := run_repr ((livePairs (run ops)).map (fun p => Op.set ts p.1 p.2))
      rw [hm2]
      exact buildMap_lookup_none _ 0 [] 0 k hall rfl
    simp [StorageEngine.get, hnone]
  | found G =>
    obtain ⟨p, hl⟩ := get_found_lookup (run ops) k G hg
    have hlive : (k, G) ∈ livePairs (run ops) := livePairs_mem_of_get _ k G p hl hg
    obtain ⟨hGnil, hGlt, hGfix, hGutf⟩ := run_get_found ops k G hg
    have hmem2 : (ts, k, G) ∈ opsToEntries ((livePairs (run ops)).map
        (fun p => Op.set ts p.1 p.2)) := by
      rw [hentries]
      exact List.mem_map.mpr ⟨(k, G), hlive, rfl⟩
    rw [hc]
    cases hl2 : mapLookup k
        (run ((livePairs (run ops)).map (fun p => Op.set ts p.1 p.2))).key_position_map with
    | none =>
      exfalso
      obtain ⟨_, hm2, _⟩ := run_repr ((livePairs (run ops)).map (fun p => Op.set ts p.1 p.2))
      rw [hm2] at hl2
      obtain ⟨_, hall⟩ := buildMap_lookup_none_inv _ 0 [] 0 k hl2
      exact hall _ hmem2 rfl
    | some p2 =>
      obtain ⟨ts3, V3, A, B, hmem3, hsplit, hp2⟩ :=
        run_lookup_entry ((livePairs (run ops)).map (fun p => Op.set ts p.1 p.2)) k p2 hl2
      have hnd : ((opsToEntries ((livePairs (run ops)).map
          (fun p => Op.set ts p.1 p.2))).map (fun x => x.2.1)).Nodup := by
        rw [hentries, List.map_map]
        have hfun : ((fun x : Nat × Bytes × Bytes => x.2.1)
            ∘ (fun p : Bytes × Bytes => (ts, p.1, p.2))) = fun p : Bytes × Bytes => p.1 := rfl
        rw [hfun]
        exact livePairs_keys_nodup (run ops) (run_nodupKeys ops)
      have huniq := entries_key_unique _ hnd hmem3 hmem2
      rw [huniq.2] at hsplit
      have hget2 := get_entry_at
        (run ((livePairs (run ops)).map (fun p => Op.set ts p.1 p.2))) A B ts3 k G
        hsplit (by rw [hl2, hp2])
      rw [hget2, if_neg (by
        rw [Nat.mod_eq_of_lt hGlt]
        intro h0
        exact hGnil (List.length_eq_zero.mp h0)), hGfix, if_pos hGutf]

/-- On a reachable state whose operations are within the 32-bit limits and
carry string (valid UTF-8) values, `get` never panics: with no length-field
wrap the value slice read back is exactly the written value, which is valid
UTF-8. -/
theorem run_no_panic (ops : List Op) (hlim : opsInLimits ops)
    (hutf : opsValsUtf8 ops) (k : Bytes) : (run ops).get k ≠ GetResult.panic := by
  rcases run_get_spec ops k with h | ⟨ts, V, hmem, hz, hv, h⟩ | ⟨ts, V, hmem, hz, hv, h⟩
  · rw [h]
    intro hc
    cases hc
  · rw [h]
    intro hc
    cases hc
  · exfalso
    have hk : k.length < 2 ^ 32 := (hlim _ hmem).1
    have hV : V.length < 2 ^ 32 := (hlim _ hmem).2
    have hVu : validUtf8 V = true := hutf _ hmem
    rw [liveVal_of_lt hk hV, hVu] at hv
    cases hv

/-- Under the same conditions no indexed key's read panics, so compaction
does not abort. -/
theorem compact_no_abort (ops : List Op) (ts : Nat) (hlim : opsInLimits ops)
    (hutf : opsValsUtf8 ops) :
    (run ops).compact ts
      = run ((livePairs (run ops)).map (fun p => Op.set ts p.1 p.2)) := by
  have hcond : ¬ ∃ q ∈ (run ops).key_position_map,
      (run ops).get q.1 = GetResult.panic := by
    intro hex
    obtain ⟨q, _, hpan⟩ := hex
    exact run_no_panic ops hlim hutf q.1 hpan
  unfold StorageEngine.compact
  rw [if_neg hcond]

/-! ### Further helpers for the claim theorems -/

theorem toBeBytes_mod (w n : Nat) : toBeBytes w (n % 256 ^ w) = toBeBytes w n := by
  induction w generalizing n with
  | zero => rfl
  | succ w ih =>
    have h1 : n % 256 ^ (w + 1) / 256 = n / 256 % 256 ^ w := by
      rw [pow_succ, Nat.mul_comm (256 ^ w) 256]
      exact Nat.mod_mul_right_div_self n 256 (256 ^ w)
    have h2 : n % 256 ^ (w + 1) % 256 = n % 256 := by
      apply Nat.mod_mod_of_dvd
      exact Dvd.intro_left (256 ^ w) rfl
    show toBeBytes w (n % 256 ^ (w + 1) / 256) ++ [n % 256 ^ (w + 1) % 256]
      = toBeBytes w (n / 256) ++ [n % 256]
    rw [h1, h2, ih]

theorem toBeBytes4_mod (n : Nat) : toBeBytes 4 (n % 2 ^ 32) = toBeBytes 4 n := by
  have h : (2 : Nat) ^ 32 = 256 ^ 4 := by norm_num
  rw [h]
  exact toBeBytes_mod 4 n

/-- The result of `get` on the key just written by `set`. -/
theorem get_after_set_self (e : StorageEngine) (ts : Nat) (k v : Bytes) :
    (e.set ts k v).get k
      = if v.length % 2 ^ 32 = 0 then GetResult.notFound
        else if validUtf8 (liveVal k v) then GetResult.found (liveVal k v)
        else GetResult.panic := by
  apply get_entry_at (e.set ts k v) e.file [] ts k v
  · show e.file ++ LogEntry.to_binary_log ts k v
      = e.file ++ (LogEntry.to_binary_log ts k v ++ [])
    rw [List.append_nil]
  · exact mapLookup_insert_self k e.file.length e.key_position_map

theorem readExactAt_extend {file : Bytes} {off n : Nat} {w : Bytes} (E : Bytes)
    (h : readExactAt file off n = some w) : readExactAt (file ++ E) off n = some w := by
  have hb := readExactAt_bound h
  have hv := readExactAt_val h
  apply readExactAt_eq_some
  · rw [List.length_append]
    omega
  · rw [List.drop_append_eq_append_drop, Nat.sub_eq_zero_of_le (by omega), List.drop_zero,
      take_append_le _ _ _ (by rw [List.length_drop]; omega)]
    exact hv

/-- Appending an entry for key `k` leaves the `get` result of any other key
unchanged, provided that `get` did not already hit an out-of-bounds read. -/
theorem get_set_frame (e : StorageEngine) (ts : Nat) (k v k' : Bytes) (hne : k' ≠ k)
    (hnp : e.get k' ≠ .panic) : (e.set ts k v).get k' = e.get k' := by
  have hm : mapLookup k' (e.set ts k v).key_position_map = mapLookup k' e.key_position_map :=
    mapLookup_insert_ne k k' _ _ hne
  cases hl : mapLookup k' e.key_position_map with
  | none =>
    have hl2 : mapLookup k' (e.set ts k v).key_position_map = none := by rw [hm, hl]
    simp [StorageEngine.get, hl, hl2]
  | some p =>
    have hl2 : mapLookup k' (e.set ts k v).key_position_map = some p := by rw [hm, hl]
    cases h1 : readExactAt e.file (p + 16) 4 with
    | none => exact absurd (by simp [StorageEngine.get, hl, h1]) hnp
    | some klb =>
      have h1' : readExactAt (e.set ts k v).file (p + 16) 4 = some klb :=
        readExactAt_extend _ h1
      cases h2 : readExactAt e.file (p + 20) 4 with
      | none => exact absurd (by simp [StorageEngine.get, hl, h1, h2]) hnp
      | some vlb =>
        have h2' : readExactAt (e.set ts k v).file (p + 20) 4 = some vlb :=
          readExactAt_extend _ h2
        by_cases hz : fromBe vlb = 0
        · simp [StorageEngine.get, hl, hl2, h1, h1', h2, h2', hz]
        · cases h3 : readExactAt e.file (p + 24 + fromBe klb) (fromBe vlb) with
          | none => exact absurd (by simp [StorageEngine.get, hl, h1, h2, hz, h3]) hnp
          | some w =>
            have h3' : readExactAt (e.set ts k v).file (p + 24 + fromBe klb) (fromBe vlb)
                = some w := readExactAt_extend _ h3
            simp [StorageEngine.get, hl, hl2, h1, h1', h2, h2', hz, h3, h3']

/-! ### Claim theorems -/

/-- C1, counterexample: the claim fixes a 16-byte prefix (8-byte timestamp)
and a total length of `16 + key_len + val_len`; but the encoder writes the
timestamp as 16 bytes (`u128::to_be_bytes`), so the entry for key `"a"` and
value `"b"` is 26 bytes long, not `16 + 1 + 1 = 18`. -/
theorem C1_cex :
    (LogEntry.to_binary_log 0 [97] [98]).length = 26
    ∧ ¬ (LogEntry.to_binary_log 0 [97] [98]).length = 16 + 1 + 1 := by
  decide

/-- C1, amended: every encoded log entry has a fixed 24-byte prefix
(16-byte big-endian millisecond timestamp, 4-byte key_len, 4-byte val_len)
followed by the key and value bytes, so the total encoded byte length is
`24 + key_len + val_len`; after decoding an entry (its timestamp, its
length fields `klb` and `vlb`, and its key), when the key bytes are valid
UTF-8 the index-rebuild scan advances by exactly
`24 + fromBe klb + fromBe vlb` (the decoded length fields), and when they
are not it aborts — the `String::from_utf8(key_buffer).unwrap()` panic of
src/main.rs line 212. -/
theorem C1_theorem :
    (∀ (ts : Nat) (k v : Bytes),
      (LogEntry.to_binary_log ts k v).length = 24 + k.length + v.length)
    ∧ (∀ (file : Bytes) (fuel pos : Nat) (m : KeyMap) (s : Nat) (tsb klb vlb key : Bytes),
        pos < file.length →
        readExactAt file pos 16 = some tsb →
        readExactAt file (pos + 16) 4 = some klb →
        readExactAt file (pos + 20) 4 = some vlb →
        readExactAt file (pos + 24) (fromBe klb) = some key →
        validUtf8 key = true →
        loadLoop file (fuel + 1) pos m s
          = loadLoop file fuel (pos + (24 + fromBe klb + fromBe vlb))
              (mapInsert key pos m) (s + 1))
    ∧ ∀ (file : Bytes) (fuel pos : Nat) (m : KeyMap) (s : Nat) (tsb klb vlb key : Bytes),
        pos < file.length →
        readExactAt file pos 16 = some tsb →
        readExactAt file (pos + 16) 4 = some klb →
        readExactAt file (pos + 20) 4 = some vlb →
        readExactAt file (pos + 24) (fromBe klb) = some key →
        validUtf8 key = false →
        loadLoop file (fuel + 1) pos m s = none :=
  ⟨entry_length,
    fun file fuel pos m s tsb klb vlb key h1 h2 h3 h4 h5 h6 =>
      loadLoop_step file fuel pos m s tsb klb vlb key h1 h2 h3 h4 h5 h6,
    fun file fuel pos m s tsb klb vlb key h1 h2 h3 h4 h5 h6 =>
      loadLoop_abort file fuel pos m s tsb klb vlb key h1 h2 h3 h4 h5 h6⟩

theorem C1_witness :
    (LogEntry.to_binary_log 3 [97] [98]).length = 24 + 1 + 1
    ∧ loadLoop (LogEntry.to_binary_log 3 [97] [98]) 1 0 [] 0
      = loadLoop (LogEntry.to_binary_log 3 [97] [98]) 0
          (0 + (24 + fromBe [0, 0, 0, 1] + fromBe [0, 0, 0, 1]))
          (mapInsert [97] 0 []) (0 + 1)
    ∧ loadLoop (LogEntry.to_binary_log 3 [255] [98]) 1 0 [] 0 = none :=
  ⟨C1_theorem.1 3 [97] [98],
    C1_theorem.2.1 (LogEntry.to_binary_log 3 [97] [98]) 0 0 [] 0
      (toBeBytes 16 3) [0, 0, 0, 1] [0, 0, 0, 1] [97]
      (by decide) (by decide) (by decide) (by decide) (by decide) (by decide),
    C1_theorem.2.2 (LogEntry.to_binary_log 3 [255] [98]) 0 0 [] 0
      (toBeBytes 16 3) [0, 0, 0, 1] [0, 0, 0, 1] [255]
      (by decide) (by decide) (by decide) (by decide) (by decide) (by decide)⟩

/-- C2, confirmed: decoding (as assembled from the source readers) the bytes
produced by encoding a (timestamp, key, value) triple returns exactly that
triple, whenever key and value are each at most `2^32 - 1` bytes long.  The
timestamp hypothesis `ts < 2^128` mirrors the `u128` type of the encoded
millisecond count in the source. -/
theorem C2_theorem (ts : Nat) (k v : Bytes) (hts : ts < 2 ^ 128)
    (hk : k.length < 2 ^ 32) (hv : v.length < 2 ^ 32) :
    decodeEntry (LogEntry.to_binary_log ts k v) = some (ts, k, v) := by
  have hkl : fromBe (toBeBytes 4 k.length) = k.length := by
    rw [fromBe_toBeBytes4, Nat.mod_eq_of_lt hk]
  have hvl : fromBe (toBeBytes 4 v.length) = v.length := by
    rw [fromBe_toBeBytes4, Nat.mod_eq_of_lt hv]
  have htsv : fromBe (toBeBytes 16 ts) = ts := by
    rw [fromBe_toBeBytes16, Nat.mod_eq_of_lt hts]
  have hval : readExactAt (LogEntry.to_binary_log ts k v) (24 + k.length) v.length
      = some v := by
    have h := entry_read_payload ts k v k.length v.length (Nat.le_refl _)
    rwa [List.drop_left, List.take_length] at h
  unfold decodeEntry
  rw [entry_read_ts, entry_read_klb, entry_read_vlb]
  simp only [hkl, hvl, htsv, entry_read_key, hval]

theorem C2_witness :
    5 < 2 ^ 128 ∧ ([97] : Bytes).length < 2 ^ 32 ∧ ([98, 99] : Bytes).length < 2 ^ 32
    ∧ decodeEntry (LogEntry.to_binary_log 5 [97] [98, 99]) = some (5, [97], [98, 99]) :=
  ⟨by norm_num, by norm_num, by norm_num,
    C2_theorem 5 [97] [98, 99] (by norm_num) (by norm_num) (by norm_num)⟩

/-- C7, counterexample: the claim requires encoding to fail with
`EncodingError` for a key longer than `2^32 - 1` bytes and not to wrap the
length fields; but the encoder is total and silently wraps: for a key of
exactly `2^32` bytes it succeeds, producing a key-length field of
`[0,0,0,0]` — the same field an empty key produces. -/
theorem C7_cex :
    (LogEntry.to_binary_log 0 (List.replicate (2 ^ 32) 97) []).length = 24 + 2 ^ 32
    ∧ readExactAt (LogEntry.to_binary_log 0 (List.replicate (2 ^ 32) 97) []) 16 4
        = some [0, 0, 0, 0]
    ∧ readExactAt (LogEntry.to_binary_log 0 [] []) 16 4 = some [0, 0, 0, 0] := by
  refine ⟨?_, ?_, by decide⟩
  · rw [entry_length, List.length_replicate, List.length_nil]
    omega
  · rw [entry_read_klb, List.length_replicate,
      show toBeBytes 4 (2 ^ 32) = [0, 0, 0, 0] by decide]

/-- C7, amended: encoding never fails — `to_binary_log` is total; whatever
the key and value byte lengths, the full key and value bytes are appended
after a 24-byte prefix, and the 4-byte length fields hold the lengths
reduced modulo `2^32` (silent wrap-around for oversized keys or values,
exact lengths below `2^32`). -/
theorem C7_theorem (ts : Nat) (k v : Bytes) :
    (LogEntry.to_binary_log ts k v).length = 24 + k.length + v.length
    ∧ readExactAt (LogEntry.to_binary_log ts k v) 16 4
        = some (toBeBytes 4 (k.length % 2 ^ 32))
    ∧ readExactAt (LogEntry.to_binary_log ts k v) 20 4
        = some (toBeBytes 4 (v.length % 2 ^ 32))
    ∧ readExactAt (LogEntry.to_binary_log ts k v) 24 k.length = some k
    ∧ readExactAt (LogEntry.to_binary_log ts k v) (24 + k.length) v.length = some v := by
  refine ⟨entry_length ts k v, ?_, ?_, entry_read_key ts k v, ?_⟩
  · rw [entry_read_klb, toBeBytes4_mod]
  · rw [entry_read_vlb, toBeBytes4_mod]
  · have h := entry_read_payload ts k v k.length v.length (Nat.le_refl _)
    rwa [List.drop_left, List.take_length] at h

/-- C10, confirmed: `get` never returns an empty value — for every engine
state (in particular every reachable one) it returns not-found, a non-empty
value, or panics on an out-of-bounds read; and `delete` is definitionally
`set` with the empty value, so an empty-value `set` is observationally
identical to `delete` at the `get` interface and an explicitly stored empty
string can never be retrieved. -/
theorem C10_theorem :
    (∀ (e : StorageEngine) (k v : Bytes), e.get k = .found v → v ≠ [])
    ∧ ∀ (e : StorageEngine) (ts : Nat) (k : Bytes), e.delete ts k = e.set ts k [] :=
  ⟨fun e k v h => get_found_ne_nil e k v h, fun _ _ _ => rfl⟩

theorem C10_witness :
    (emptyEngine.set 0 [97] [98]).get [97] = .found [98]
    ∧ ([98] : Bytes) ≠ [] :=
  ⟨by decide,
    C10_theorem.1 (emptyEngine.set 0 [97] [98]) [97] [98] (by decide)⟩

/-- C3, counterexample: the claim quantifies over every non-empty `v2`; but
for a second value of exactly `2^32` bytes the wrapped `val_len` field is 0,
so the entry is read back as a tombstone and `get` returns not-found
instead of `v2`. -/
theorem C3_cex :
    ((emptyEngine.set 0 [97] [98]).set 1 [97]
        (List.replicate (2 ^ 32) 99)).get [97] = .notFound
    ∧ GetResult.notFound ≠ .found (List.replicate (2 ^ 32) 99) := by
  constructor
  · rw [get_after_set_self, if_pos (by rw [List.length_replicate]; decide)]
  · intro h
    cases h

/-- C3, amended (last-write-wins): for every engine state and every key `k`
and values `v1`, `v2` with `v2` non-empty, `v2` the byte encoding of a
string (valid UTF-8, as every stored Rust `String` value is) and `k` and
`v2` each at most `2^32 - 1` bytes long, after `set(k, v1)` then
`set(k, v2)`, `get(k)` returns `v2`. -/
theorem C3_theorem (e : StorageEngine) (ts1 ts2 : Nat) (k v1 v2 : Bytes)
    (hne : v2 ≠ []) (hk : k.length < 2 ^ 32) (hv : v2.length < 2 ^ 32)
    (hvu : validUtf8 v2 = true) :
    ((e.set ts1 k v1).set ts2 k v2).get k = .found v2 := by
  rw [get_after_set_self, if_neg (by
      rw [Nat.mod_eq_of_lt hv]
      exact fun h0 => hne (List.length_eq_zero.mp h0)),
    liveVal_of_lt hk hv, if_pos hvu]

theorem C3_witness :
    ([99] : Bytes) ≠ [] ∧ ([97] : Bytes).length < 2 ^ 32 ∧ ([99] : Bytes).length < 2 ^ 32
    ∧ validUtf8 [99] = true
    ∧ ((emptyEngine.set 0 [97] [98]).set 1 [97] [99]).get [97] = .found [99] :=
  ⟨by decide, by norm_num, by norm_num, by decide,
    C3_theorem emptyEngine 0 1 [97] [98] [99]
      (by decide) (by norm_num) (by norm_num) (by decide)⟩

/-- C4, counterexample: the first half of the claim holds, but the claimed
recovery by a subsequent `set(k, v2)` fails when `v2` has exactly `2^32`
bytes — the wrapped `val_len` field is 0 and `get` still answers not-found
rather than `v2`. -/
theorem C4_cex :
    (((emptyEngine.set 0 [97] [98]).delete 1 [97]).set 2 [97]
        (List.replicate (2 ^ 32) 99)).get [97] = .notFound
    ∧ GetResult.notFound ≠ .found (List.replicate (2 ^ 32) 99) := by
  constructor
  · rw [get_after_set_self, if_pos (by rw [List.length_replicate]; decide)]
  · intro h
    cases h

/-- C4, amended (tombstone semantics): for every engine state, key `k` and
value `v`, after `set(k, v)` then `delete(k)`, `get(k)` is not-found; a
subsequent `set(k, v2)` with `v2` non-empty, `v2` the byte encoding of a
string (valid UTF-8) and `k`, `v2` each at most `2^32 - 1` bytes makes
`get(k)` return `v2` again. -/
theorem C4_theorem (e : StorageEngine) (ts1 ts2 : Nat) (k v : Bytes) :
    ((e.set ts1 k v).delete ts2 k).get k = .notFound
    ∧ ∀ (ts3 : Nat) (v2 : Bytes), v2 ≠ [] → k.length < 2 ^ 32 → v2.length < 2 ^ 32 →
        validUtf8 v2 = true →
        (((e.set ts1 k v).delete ts2 k).set ts3 k v2).get k = .found v2 := by
  constructor
  · show ((e.set ts1 k v).set ts2 k []).get k = .notFound
    rw [get_after_set_self, if_pos (by decide)]
  · intro ts3 v2 hne hk hv hvu
    rw [get_after_set_self, if_neg (by
        rw [Nat.mod_eq_of_lt hv]
        exact fun h0 => hne (List.length_eq_zero.mp h0)),
      liveVal_of_lt hk hv, if_pos hvu]

theorem C4_witness :
    ((emptyEngine.set 0 [97] [98]).delete 1 [97]).get [97] = .notFound
    ∧ ([99] : Bytes) ≠ [] ∧ ([97] : Bytes).length < 2 ^ 32 ∧ ([99] : Bytes).length < 2 ^ 32
    ∧ validUtf8 [99] = true
    ∧ (((emptyEngine.set 0 [97] [98]).delete 1 [97]).set 2 [97] [99]).get [97]
        = .found [99] :=
  ⟨(C4_theorem emptyEngine 0 1 [97] [98]).1,
    by decide, by norm_num, by norm_num, by decide,
    (C4_theorem emptyEngine 0 1 [97] [98]).2 2 [99]
      (by decide) (by norm_num) (by norm_num) (by decide)⟩

/-- C9, counterexample: the claim asserts `get(k')` is unchanged by
`set(k, v)` for every engine state; but in a state whose index maps `k'`
beyond the end of the file (`get(k')` panics on an out-of-bounds read),
appending the new entry makes the dangling offset readable, so `get(k')`
changes from a panic to a value taken out of the new entry's bytes. -/
theorem C9_cex :
    StorageEngine.get ⟨[], [([98], 0)], 0⟩ [98] = .panic
    ∧ (StorageEngine.set ⟨[], [([98], 0)], 0⟩ 0 [97] [99, 100]).get [98] = .found [99, 100]
    ∧ StorageEngine.get ⟨[], [([98], 0)], 0⟩ [98]
        ≠ (StorageEngine.set ⟨[], [([98], 0)], 0⟩ 0 [97] [99, 100]).get [98] := by
  refine ⟨by decide, by decide, by decide⟩

/-- C9, amended (frame property of set): `set(k, v)` only appends — the new
file is the old file followed by the new entry, so all previously written
bytes are unchanged; the index binding of every other key `k'` is exactly
what it was; and for every other key `k'` whose `get` did not already panic
on an out-of-bounds read, the `get(k')` result is exactly what it was. -/
theorem C9_theorem (e : StorageEngine) (ts : Nat) (k v k' : Bytes) (hne : k' ≠ k) :
    (e.set ts k v).file = e.file ++ LogEntry.to_binary_log ts k v
    ∧ mapLookup k' (e.set ts k v).key_position_map = mapLookup k' e.key_position_map
    ∧ (e.get k' ≠ .panic → (e.set ts k v).get k' = e.get k') :=
  ⟨rfl, mapLookup_insert_ne k k' _ _ hne,
    fun hnp => get_set_frame e ts k v k' hne hnp⟩

theorem C9_witness :
    ([97] : Bytes) ≠ [98]
    ∧ (emptyEngine.set 0 [97] [100]).get [97] ≠ .panic
    ∧ ((emptyEngine.set 0 [97] [100]).set 5 [98] [99]).get [97]
        = (emptyEngine.set 0 [97] [100]).get [97] :=
  ⟨by decide, by decide,
    (C9_theorem (emptyEngine.set 0 [97] [100]) 5 [98] [99] [97]
      (by decide)).2.2 (by decide)⟩

/-- C8, counterexample: the claim quantifies over arbitrary interleavings
of operations across keys.  Store `"b"`, delete it (leaving a tombstone
entry in the log), then store under key `"a"` a string value of `2^32 + 1`
bytes that begins with a two-byte character (lead byte 195, continuation
byte 128, then `2^32 - 1` ASCII bytes).  Its wrapped `val_len` field is 1,
so `get("a")` reads back only the value's first byte, `[195]`, which is
not valid UTF-8: `String::from_utf8(val_buffer).unwrap()` panics
(src/main.rs line 283).  Per spec section 4.5.4 the copy phase's failure
aborts compaction, leaving the original log untouched: the post-compaction
file still equals the three-entry log, which contains the tombstone entry
`(1, "b", empty)` — and two entries with key `"b"` — falsifying "the
resulting log file contains no tombstone entries and exactly one entry per
live key". -/
theorem C8_cex :
    validUtf8 (195 :: 128 :: List.replicate (2 ^ 32 - 1) 97) = true
    ∧ (run [Op.set 0 [98] [98], Op.del 1 [98],
        Op.set 2 [97] (195 :: 128 :: List.replicate (2 ^ 32 - 1) 97)]).get [97]
      = GetResult.panic
    ∧ (run [Op.set 0 [98] [98], Op.del 1 [98],
        Op.set 2 [97] (195 :: 128 :: List.replicate (2 ^ 32 - 1) 97)]).compact 9
      = run [Op.set 0 [98] [98], Op.del 1 [98],
          Op.set 2 [97] (195 :: 128 :: List.replicate (2 ^ 32 - 1) 97)]
    ∧ ((run [Op.set 0 [98] [98], Op.del 1 [98],
        Op.set 2 [97] (195 :: 128 :: List.replicate (2 ^ 32 - 1) 97)]).compact 9).file
      = encodeAll [(0, [98], [98]), (1, [98], []),
          (2, [97], 195 :: 128 :: List.replicate (2 ^ 32 - 1) 97)] := by
  have hvalid : validUtf8 (195 :: 128 :: List.replicate (2 ^ 32 - 1) 97) = true := by
    rw [validUtf8_cons2 (by norm_num) (by norm_num) (by norm_num) (by norm_num),
      validUtf8_replicate (by norm_num)]
  have hf : (run [Op.set 0 [98] [98], Op.del 1 [98],
      Op.set 2 [97] (195 :: 128 :: List.replicate (2 ^ 32 - 1) 97)]).file
      = ((([] : Bytes) ++ LogEntry.to_binary_log 0 [98] [98])
          ++ LogEntry.to_binary_log 1 [98] [])
        ++ (LogEntry.to_binary_log 2 [97]
            (195 :: 128 :: List.replicate (2 ^ 32 - 1) 97) ++ []) := by
    rw [List.append_nil]
    rfl
  have hmap : (run [Op.set 0 [98] [98], Op.del 1 [98],
      Op.set 2 [97] (195 :: 128 :: List.replicate (2 ^ 32 - 1) 97)]).key_position_map
      = mapInsert [97] (((([] : Bytes) ++ LogEntry.to_binary_log 0 [98] [98])
          ++ LogEntry.to_binary_log 1 [98] []).length)
        (mapInsert [98] ((([] : Bytes) ++ LogEntry.to_binary_log 0 [98] [98]).length)
          (mapInsert [98] (([] : Bytes)).length [])) := rfl
  have hp : mapLookup [97] (run [Op.set 0 [98] [98], Op.del 1 [98],
      Op.set 2 [97] (195 :: 128 :: List.replicate (2 ^ 32 - 1) 97)]).key_position_map
      = some (((([] : Bytes) ++ LogEntry.to_binary_log 0 [98] [98])
          ++ LogEntry.to_binary_log 1 [98] []).length) := by
    rw [hmap]
    exact mapLookup_insert_self _ _ _
  have hmod : (195 :: 128 :: List.replicate (2 ^ 32 - 1) 97 : Bytes).length % 2 ^ 32
      = 1 := by
    rw [List.length_cons, List.length_cons, List.length_replicate]
    decide
  have hlv : liveVal [97] (195 :: 128 :: List.replicate (2 ^ 32 - 1) 97) = [195] := by
    unfold liveVal
    rw [hmod, show ([97] : Bytes).length % 2 ^ 32 = 1 by decide]
    rfl
  have hg : (run [Op.set 0 [98] [98], Op.del 1 [98],
      Op.set 2 [97] (195 :: 128 :: List.replicate (2 ^ 32 - 1) 97)]).get [97]
      = GetResult.panic := by
    rw [get_entry_at _ _ _ 2 [97] (195 :: 128 :: List.replicate (2 ^ 32 - 1) 97) hf hp,
      hmod, if_neg one_ne_zero, hlv, if_neg (by decide)]
  have hex : ∃ q ∈ (run [Op.set 0 [98] [98], Op.del 1 [98],
      Op.set 2 [97] (195 :: 128 :: List.replicate (2 ^ 32 - 1) 97)]).key_position_map,
      (run [Op.set 0 [98] [98], Op.del 1 [98],
        Op.set 2 [97] (195 :: 128 :: List.replicate (2 ^ 32 - 1) 97)]).get q.1
        = GetResult.panic := by
    refine ⟨([97], ((([] : Bytes) ++ LogEntry.to_binary_log 0 [98] [98])
        ++ LogEntry.to_binary_log 1 [98] []).length), ?_, hg⟩
    rw [hmap]
    exact List.mem_cons_self _ _
  have hcomp : (run [Op.set 0 [98] [98], Op.del 1 [98],
      Op.set 2 [97] (195 :: 128 :: List.replicate (2 ^ 32 - 1) 97)]).compact 9
      = run [Op.set 0 [98] [98], Op.del 1 [98],
          Op.set 2 [97] (195 :: 128 :: List.replicate (2 ^ 32 - 1) 97)] := by
    unfold StorageEngine.compact
    rw [if_pos hex]
  refine ⟨hvalid, hg, hcomp, ?_⟩
  rw [hcomp]
  exact (run_repr [Op.set 0 [98] [98], Op.del 1 [98],
    Op.set 2 [97] (195 :: 128 :: List.replicate (2 ^ 32 - 1) 97)]).1

/-- C8, amended, against the spec-modelled compactor: compaction preserves
every `get` on every reachable state unconditionally (when reading some
indexed key's value panics, compaction aborts per spec section 4.5.4,
leaving the state untouched); and when every operation fits the 32-bit
length fields and carries string (valid UTF-8) values, compaction does not
abort and the resulting log consists of exactly one freshly-stamped entry
per live pair, each with a non-empty value (no tombstones), with
pairwise-distinct keys, and the live pairs are exactly the keys on which
`get` returns a value. -/
theorem C8_theorem :
    (∀ (ops : List Op) (ts : Nat) (k : Bytes),
      ((run ops).compact ts).get k = (run ops).get k)
    ∧ ∀ (ops : List Op) (ts : Nat), opsInLimits ops → opsValsUtf8 ops →
        ((run ops).compact ts).file
          = encodeAll ((livePairs (run ops)).map (fun p => (ts, p.1, p.2)))
        ∧ (∀ p ∈ livePairs (run ops), p.2 ≠ [])
        ∧ ((livePairs (run ops)).map (fun p => p.1)).Nodup
        ∧ ∀ (k G : Bytes),
            ((run ops).get k = .found G ↔ (k, G) ∈ livePairs (run ops)) := by
  refine ⟨compact_get, ?_⟩
  intro ops ts hlim hutf
  refine ⟨?_, ?_, livePairs_keys_nodup _ (run_nodupKeys ops), ?_⟩
  · rw [compact_no_abort ops ts hlim hutf]
    obtain ⟨hf2, _, _⟩ :=
      run_repr ((livePairs (run ops)).map (fun p => Op.set ts p.1 p.2))
    rw [hf2]
    congr 1
    unfold opsToEntries
    rw [List.map_map]
    rfl
  · intro p hp
    exact get_found_ne_nil (run ops) p.1 p.2 (livePairs_get _ _ _ hp)
  · intro k G
    constructor
    · intro h
      obtain ⟨q, hl⟩ := get_found_lookup _ _ _ h
      exact livePairs_mem_of_get _ _ _ q hl h
    · exact livePairs_get _ _ _

theorem C8_witness :
    (([97], [51]) ∈ livePairs (run [Op.set 0 [97] [49], Op.set 0 [98] [50],
        Op.del 1 [97], Op.set 2 [97] [51]]))
    ∧ ([51] : Bytes) ≠ []
    ∧ opsInLimits [Op.set 0 [97] [49], Op.set 0 [98] [50], Op.del 1 [97],
        Op.set 2 [97] [51]]
    ∧ opsValsUtf8 [Op.set 0 [97] [49], Op.set 0 [98] [50], Op.del 1 [97],
        Op.set 2 [97] [51]]
    ∧ ((run [Op.set 0 [97] [49], Op.set 0 [98] [50], Op.del 1 [97],
        Op.set 2 [97] [51]]).compact 9).get [97]
      = (run [Op.set 0 [97] [49], Op.set 0 [98] [50], Op.del 1 [97],
        Op.set 2 [97] [51]]).get [97]
    ∧ ((run [Op.set 0 [97] [49], Op.set 0 [98] [50], Op.del 1 [97],
        Op.set 2 [97] [51]]).compact 9).file
      = encodeAll ((livePairs (run [Op.set 0 [97] [49], Op.set 0 [98] [50],
          Op.del 1 [97], Op.set 2 [97] [51]])).map (fun p => (9, p.1, p.2))) :=
  ⟨by decide, (C8_theorem.2 [Op.set 0 [97] [49], Op.set 0 [98] [50], Op.del 1 [97],
      Op.set 2 [97] [51]] 9 (by decide) (by decide)).2.1 ([97], [51]) (by decide),
    by decide, by decide,
    C8_theorem.1 [Op.set 0 [97] [49], Op.set 0 [98] [50], Op.del 1 [97],
      Op.set 2 [97] [51]] 9 [97],
    (C8_theorem.2 [Op.set 0 [97] [49], Op.set 0 [98] [50], Op.del 1 [97],
      Op.set 2 [97] [51]] 9 (by decide) (by decide)).1⟩

/-- C6, code bug: append the well-formed entry for key `"b"`, value `"22"`
(27 bytes) after a log holding the entry `"a" -> "1"` (26 bytes), then
truncate one byte into the last entry's value (at byte 52 of 53).  The
claim — and spec sections 4.3/7 — say the partial entry contributes no
mapping, but the rebuild scan inserts `key -> offset` after reading only
the header and key, without checking that the value bytes exist: the
rebuilt index maps `"b"` to offset 26, and `get("b")` on the rebuilt
engine then panics on an out-of-bounds value read, where the pre-truncation
index had no binding for `"b"` at all. -/
theorem C6_eval :
    StorageEngine.load_key_pos_map_from_file
        (LogEntry.to_binary_log 0 [97] [49]
          ++ (LogEntry.to_binary_log 0 [98] [50, 50]).take 26)
      = some ([([98], 26), ([97], 0)], 2)
    ∧ StorageEngine.load_key_pos_map_from_file (LogEntry.to_binary_log 0 [97] [49])
      = some ([([97], 0)], 1)
    ∧ (StorageEngine.load_key_pos_map_from_file
        (LogEntry.to_binary_log 0 [97] [49]
          ++ (LogEntry.to_binary_log 0 [98] [50, 50]).take 26)).map
        (fun r => mapLookup [98] r.1) = some (some 26)
    ∧ (StorageEngine.load_key_pos_map_from_file
        (LogEntry.to_binary_log 0 [97] [49])).map
        (fun r => mapLookup [98] r.1) = some none
    ∧ (StorageEngine.new
        (LogEntry.to_binary_log 0 [97] [49]
          ++ (LogEntry.to_binary_log 0 [98] [50, 50]).take 26)).map
        (fun e => e.get [98]) = some GetResult.panic := by
  decide

/-- C5, amended (recovery): rebuilding the Key Index from the same file
twice trivially yields identical mappings (the rebuild is a pure function
of the file bytes); and for an engine that performed, from a fresh start on
an empty file, any sequence of set/delete operations whose keys are byte
encodings of strings (valid UTF-8, as every Rust `String` key is) and
whose keys and values each fit the 4-byte length fields (at most
`2^32 - 1` bytes), constructing a fresh engine against the resulting file
succeeds — the rebuild scan reads back exactly the written string keys, so
it never hits the invalid-UTF-8 panic — and reproduces the original engine
exactly, in particular every `get` result. -/
theorem C5_theorem :
    (∀ file : Bytes, StorageEngine.load_key_pos_map_from_file file
        = StorageEngine.load_key_pos_map_from_file file)
    ∧ (∀ ops : List Op, opsInLimits ops → opsKeysUtf8 ops →
        StorageEngine.new ((run ops).file) = some (run ops))
    ∧ ∀ ops : List Op, opsInLimits ops → opsKeysUtf8 ops → ∀ k : Bytes,
        (StorageEngine.new ((run ops).file)).map (fun e => e.get k)
          = some ((run ops).get k) := by
  have hmain : ∀ ops : List Op, opsInLimits ops → opsKeysUtf8 ops →
      StorageEngine.new ((run ops).file) = some (run ops) := by
    intro ops hlim hutf
    obtain ⟨hf, hm, hs⟩ := run_repr ops
    have hload := load_of_encodeAll (opsToEntries ops) hlim hutf
    have h1 : StorageEngine.load_key_pos_map_from_file ((run ops).file)
        = some (buildMap 0 (opsToEntries ops) [] 0) := by
      rw [hf]
      exact hload
    calc StorageEngine.new ((run ops).file)
        = some ⟨(run ops).file, (buildMap 0 (opsToEntries ops) [] 0).1,
            (buildMap 0 (opsToEntries ops) [] 0).2⟩ := new_of_load _ _ _ h1
      _ = some (run ops) := by rw [← hm, ← hs]
  exact ⟨fun _ => rfl, hmain, fun ops hlim hutf k => by
    rw [hmain ops hlim hutf, Option.map_some']⟩

theorem C5_witness :
    opsInLimits [Op.set 0 [97] [98], Op.del 1 [97]]
    ∧ opsKeysUtf8 [Op.set 0 [97] [98], Op.del 1 [97]]
    ∧ StorageEngine.new ((run [Op.set 0 [97] [98], Op.del 1 [97]]).file)
        = some (run [Op.set 0 [97] [98], Op.del 1 [97]])
    ∧ (StorageEngine.new ((run [Op.set 0 [97] [98], Op.del 1 [97]]).file)).map
        (fun e => e.get [97])
        = some ((run [Op.set 0 [97] [98], Op.del 1 [97]]).get [97]) :=
  ⟨by decide, by decide,
    C5_theorem.2.1 [Op.set 0 [97] [98], Op.del 1 [97]] (by decide) (by decide),
    C5_theorem.2.2 [Op.set 0 [97] [98], Op.del 1 [97]] (by decide) (by decide) [97]⟩

/-- C5, counterexample: the claim quantifies over any sequence of
set/delete operations.  Store key `"a"` with a value of exactly `2^32`
bytes (whose wrapped `val_len` field is 0), then overwrite `"a"` with
`"2"`.  The live engine answers `get("a") = "2"`.  Rebuilding the index
from the file, however, advances by only the wrapped length after the
first entry and re-parses the middle of the big value as further entries:
the rebuilt index maps `"a"` to the first (tombstone-looking) entry, so
the fresh engine answers not-found for the previously-set key `"a"`. -/
theorem C5_cex :
    (run [Op.set 0 [97] (List.replicate (2 ^ 32) 97), Op.set 0 [97] [50]]).get [97]
      = .found [50]
    ∧ (StorageEngine.new ((run [Op.set 0 [97] (List.replicate (2 ^ 32) 97),
        Op.set 0 [97] [50]]).file)).map (fun e => e.get [97])
      = some GetResult.notFound
    ∧ (GetResult.found [50] : GetResult) ≠ .notFound := by
  have hsplit1 : LogEntry.to_binary_log 0 [97] (List.replicate (2 ^ 32) 97)
      = ([0, 0, 0, 0, 0, 0, 0, 0, 0, 0, 0, 0, 0, 0, 0, 0,
          0, 0, 0, 1, 0, 0, 0, 0, 97] : Bytes)
        ++ List.replicate (2 ^ 32) 97 := by
    show toBeBytes 16 0 ++ toBeBytes 4 ([97] : Bytes).length
        ++ toBeBytes 4 (List.replicate (2 ^ 32) 97).length ++ [97]
        ++ List.replicate (2 ^ 32) 97 = _
    rw [List.length_replicate,
      show toBeBytes 16 0 = ([0, 0, 0, 0, 0, 0, 0, 0, 0, 0, 0, 0, 0, 0, 0, 0] : Bytes)
        by decide,
      show toBeBytes 4 ([97] : Bytes).length = ([0, 0, 0, 1] : Bytes) by decide,
      show toBeBytes 4 (2 ^ 32) = ([0, 0, 0, 0] : Bytes) by decide,
      show ((([0, 0, 0, 0, 0, 0, 0, 0, 0, 0, 0, 0, 0, 0, 0, 0] : Bytes)
          ++ [0, 0, 0, 1]) ++ [0, 0, 0, 0]) ++ [97]
        = ([0, 0, 0, 0, 0, 0, 0, 0, 0, 0, 0, 0, 0, 0, 0, 0,
            0, 0, 0, 1, 0, 0, 0, 0, 97] : Bytes) by decide]
  have hfileEq : (run [Op.set 0 [97] (List.replicate (2 ^ 32) 97),
      Op.set 0 [97] [50]]).file
      = ([0, 0, 0, 0, 0, 0, 0, 0, 0, 0, 0, 0, 0, 0, 0, 0,
          0, 0, 0, 1, 0, 0, 0, 0, 97] : Bytes)
        ++ (List.replicate (2 ^ 32) 97 ++ LogEntry.to_binary_log 0 [97] [50]) := by
    show (([] : Bytes) ++ LogEntry.to_binary_log 0 [97] (List.replicate (2 ^ 32) 97))
        ++ LogEntry.to_binary_log 0 [97] [50] = _
    rw [List.nil_append, hsplit1, List.append_assoc]
  have hFlen : (([0, 0, 0, 0, 0, 0, 0, 0, 0, 0, 0, 0, 0, 0, 0, 0,
      0, 0, 0, 1, 0, 0, 0, 0, 97] : Bytes)
        ++ (List.replicate (2 ^ 32) 97 ++ LogEntry.to_binary_log 0 [97] [50])).length
      = 4294967347 := by
    rw [List.length_append, List.length_append, List.length_replicate, entry_length]
    decide
  have hmapE : (run [Op.set 0 [97] (List.replicate (2 ^ 32) 97),
      Op.set 0 [97] [50]]).key_position_map
      = mapInsert [97] ((([] : Bytes)
          ++ LogEntry.to_binary_log 0 [97] (List.replicate (2 ^ 32) 97)).length)
        [([97], 0)] := rfl
  have hf : (run [Op.set 0 [97] (List.replicate (2 ^ 32) 97),
      Op.set 0 [97] [50]]).file
      = (([] : Bytes) ++ LogEntry.to_binary_log 0 [97] (List.replicate (2 ^ 32) 97))
        ++ (LogEntry.to_binary_log 0 [97] [50] ++ []) := by
    rw [List.append_nil]
    rfl
  have hPl : ∀ off n : Nat, ∀ w : Bytes, off + n ≤ 25 →
      (((([0, 0, 0, 0, 0, 0, 0, 0, 0, 0, 0, 0, 0, 0, 0, 0,
          0, 0, 0, 1, 0, 0, 0, 0, 97] : Bytes)).drop off).take n = w) →
      readExactAt (([0, 0, 0, 0, 0, 0, 0, 0, 0, 0, 0, 0, 0, 0, 0, 0,
          0, 0, 0, 1, 0, 0, 0, 0, 97] : Bytes)
        ++ (List.replicate (2 ^ 32) 97 ++ LogEntry.to_binary_log 0 [97] [50])) off n
        = some w := by
    intro off n w hb hw
    apply readExactAt_eq_some
    · rw [List.length_append,
        show (([0, 0, 0, 0, 0, 0, 0, 0, 0, 0, 0, 0, 0, 0, 0, 0,
          0, 0, 0, 1, 0, 0, 0, 0, 97] : Bytes)).length = 25 by decide]
      omega
    · rw [List.drop_append_eq_append_drop,
        Nat.sub_eq_zero_of_le (by simp; omega), List.drop_zero,
        take_append_le _ _ _ (by rw [List.length_drop]; simp; omega)]
      exact hw
  have hR : ∀ off n : Nat, 25 ≤ off → off + n ≤ 25 + 2 ^ 32 →
      readExactAt (([0, 0, 0, 0, 0, 0, 0, 0, 0, 0, 0, 0, 0, 0, 0, 0,
          0, 0, 0, 1, 0, 0, 0, 0, 97] : Bytes)
        ++ (List.replicate (2 ^ 32) 97 ++ LogEntry.to_binary_log 0 [97] [50])) off n
        = some (List.replicate n 97) := by
    intro off n h1 h2
    have hx : readExactAt (List.replicate (2 ^ 32) 97) (off - 25) n
        = some (List.replicate n 97) := by
      apply readExactAt_eq_some
      · rw [List.length_replicate]
        omega
      · rw [List.drop_replicate, List.take_replicate]
        have hmin : min n (2 ^ 32 - (off - 25)) = n := by omega
        rw [hmin]
    have h3 := readExactAt_seg
      ([0, 0, 0, 0, 0, 0, 0, 0, 0, 0, 0, 0, 0, 0, 0, 0,
        0, 0, 0, 1, 0, 0, 0, 0, 97] : Bytes)
      (LogEntry.to_binary_log 0 [97] [50]) hx
    rw [show (([0, 0, 0, 0, 0, 0, 0, 0, 0, 0, 0, 0, 0, 0, 0, 0,
        0, 0, 0, 1, 0, 0, 0, 0, 97] : Bytes)).length + (off - 25) = off by
      simp
      omega] at h3
    exact h3
  have hMne : ([97] : Bytes) ≠ List.replicate 1633771873 97 := by
    intro h
    have hl := congrArg List.length h
    rw [List.length_replicate] at hl
    norm_num at hl
  have hscan : StorageEngine.load_key_pos_map_from_file
      (([0, 0, 0, 0, 0, 0, 0, 0, 0, 0, 0, 0, 0, 0, 0, 0,
          0, 0, 0, 1, 0, 0, 0, 0, 97] : Bytes)
        ++ (List.replicate (2 ^ 32) 97 ++ LogEntry.to_binary_log 0 [97] [50]))
      = some ([(List.replicate 1633771873 97, 25), ([97], 0)], 2) := by
    unfold StorageEngine.load_key_pos_map_from_file
    rw [hFlen]
    rw [loadLoop_step _ 4294967347 0 [] 0
      ([0, 0, 0, 0, 0, 0, 0, 0, 0, 0, 0, 0, 0, 0, 0, 0]) [0, 0, 0, 1] [0, 0, 0, 0] [97]
      (by rw [hFlen]; norm_num)
      (hPl 0 16 _ (by norm_num) (by decide))
      (hPl 16 4 _ (by norm_num) (by decide))
      (hPl 20 4 _ (by norm_num) (by decide))
      (hPl 24 1 [97] (by norm_num) (by decide))
      (by decide)]
    rw [show (0 : Nat) + (24 + fromBe [0, 0, 0, 1] + fromBe [0, 0, 0, 0]) = 25 by decide,
      show mapInsert [97] 0 [] = [(([97] : Bytes), 0)] from rfl,
      show (4294967347 : Nat) = 4294967346 + 1 by norm_num]
    rw [loadLoop_step _ 4294967346 25 [([97], 0)] (0 + 1)
      (List.replicate 16 97) (List.replicate 4 97) (List.replicate 4 97)
      (List.replicate 1633771873 97)
      (by rw [hFlen]; norm_num)
      (hR 25 16 (by norm_num) (by norm_num))
      (hR 41 4 (by norm_num) (by norm_num))
      (hR 45 4 (by norm_num) (by norm_num))
      (hR 49 1633771873 (by norm_num) (by norm_num))
      (validUtf8_replicate (by norm_num) 1633771873)]
    rw [show (25 : Nat) + (24 + fromBe (List.replicate 4 97) + fromBe (List.replicate 4 97))
        = 3267543795 by decide,
      show (4294967346 : Nat) = 4294967345 + 1 by norm_num]
    have hbne : (([97] : Bytes) != List.replicate 1633771873 97) = true :=
      bne_iff_ne.mpr hMne
    have hmapins : mapInsert (List.replicate 1633771873 97) 25 [(([97] : Bytes), 0)]
        = [(List.replicate 1633771873 97, 25), ([97], 0)] := by
      unfold mapInsert
      rw [show List.filter (fun q => q.1 != List.replicate 1633771873 97)
          [(([97] : Bytes), 0)] = [(([97] : Bytes), 0)] by
        rw [List.filter_cons, if_pos hbne, List.filter_nil]]
    rw [hmapins]
    rw [loadLoop_stop_key _ 4294967345 3267543795 _ _
      (List.replicate 16 97) (List.replicate 4 97) (List.replicate 4 97)
      (by rw [hFlen]; norm_num)
      (hR 3267543795 16 (by norm_num) (by norm_num))
      (hR 3267543811 4 (by norm_num) (by norm_num))
      (hR 3267543815 4 (by norm_num) (by norm_num))
      (by
        unfold readExactAt
        rw [if_neg (by rw [hFlen]; decide)])]
  refine ⟨?_, ?_, by intro h; cases h⟩
  · have hp : mapLookup [97] (run [Op.set 0 [97] (List.replicate (2 ^ 32) 97),
        Op.set 0 [97] [50]]).key_position_map
        = some ((([] : Bytes)
            ++ LogEntry.to_binary_log 0 [97] (List.replicate (2 ^ 32) 97)).length) := by
      rw [hmapE]
      exact mapLookup_insert_self _ _ _
    rw [get_entry_at _ _ _ 0 [97] [50] hf hp, if_neg (by decide),
      liveVal_of_lt (by decide) (by decide), if_pos (by decide)]
  · have hloadF : StorageEngine.load_key_pos_map_from_file
        ((run [Op.set 0 [97] (List.replicate (2 ^ 32) 97),
          Op.set 0 [97] [50]]).file)
        = some ([(List.replicate 1633771873 97, 25), ([97], 0)], 2) := by
      rw [hfileEq]
      exact hscan
    have hnewF : StorageEngine.new ((run [Op.set 0 [97] (List.replicate (2 ^ 32) 97),
        Op.set 0 [97] [50]]).file)
        = some ⟨(run [Op.set 0 [97] (List.replicate (2 ^ 32) 97),
            Op.set 0 [97] [50]]).file,
          [(List.replicate 1633771873 97, 25), ([97], 0)], 2⟩ :=
      new_of_load _ _ _ hloadF
    rw [hnewF, Option.map_some']
    refine congrArg some ?_
    have hf2 : ((⟨(run [Op.set 0 [97] (List.replicate (2 ^ 32) 97),
          Op.set 0 [97] [50]]).file,
        [(List.replicate 1633771873 97, 25), ([97], 0)], 2⟩ : StorageEngine)).file
        = ([] : Bytes)
          ++ (LogEntry.to_binary_log 0 [97] (List.replicate (2 ^ 32) 97)
            ++ LogEntry.to_binary_log 0 [97] [50]) := by
      show (run [Op.set 0 [97] (List.replicate (2 ^ 32) 97),
        Op.set 0 [97] [50]]).file = _
      rw [List.nil_append]
      rfl
    have hbeq2 : (List.replicate 1633771873 97 == ([97] : Bytes)) = false := by
      rw [beq_eq_false_iff_ne]
      exact fun h => hMne h.symm
    have hfind : List.find? (fun q => q.1 == ([97] : Bytes))
        [(List.replicate 1633771873 97, 25), (([97] : Bytes), 0)]
        = some (([97] : Bytes), 0) := by
      rw [List.find?_cons_of_neg _ (by
          show ¬ ((List.replicate 1633771873 97 == ([97] : Bytes)) = true)
          rw [hbeq2]
          exact Bool.false_ne_true),
        List.find?_cons_of_pos _ (by decide)]
    have hp2 : mapLookup [97] ((⟨(run [Op.set 0 [97] (List.replicate (2 ^ 32) 97),
          Op.set 0 [97] [50]]).file,
        [(List.replicate 1633771873 97, 25), ([97], 0)], 2⟩
          : StorageEngine)).key_position_map
        = some (([] : Bytes).length) := by
      show mapLookup [97] [(List.replicate 1633771873 97, 25), (([97] : Bytes), 0)]
        = some (([] : Bytes).length)
      unfold mapLookup
      rw [hfind]
      rfl
    rw [get_entry_at _ _ _ 0 [97] (List.replicate (2 ^ 32) 97) hf2 hp2,
      if_pos (by rw [List.length_replicate]; decide)]
